import Mathlib

/-!
Verification development for the `gear` repository.

Shallow embedding of the graph-construction code (`src/graph.py`,
class `InterventionGraphBuilder`) and of the retrieval engine
(`src/gear_retrieval.py`, class `GeARRetrieval`).  Python floats are
modelled by rationals, Python dicts by insertion-ordered association
lists, and networkx `DiGraph` objects by explicit node/edge lists.
-/

namespace Gear

/-! ### Association-list helpers (Python `dict` / `defaultdict`) -/

/-- Lookup in an insertion-ordered association list (Python `d[k]` / `d.get(k)`). -/
def getK {κ α : Type} [DecidableEq κ] : List (κ × α) → κ → Option α
  | [], _ => none
  | p :: t, k => if p.1 = k then some p.2 else getK t k

/-- Lookup with a default value (Python `d.get(k, dflt)`). -/
def getKD {κ α : Type} [DecidableEq κ] (l : List (κ × α)) (k : κ) (d : α) : α :=
  (getK l k).getD d

/-- Assignment `d[k] = v`: replace the value of an existing key in place,
append a fresh key at the end (Python dicts preserve insertion order). -/
def setK {κ α : Type} [DecidableEq κ] : List (κ × α) → κ → α → List (κ × α)
  | [], k, v => [(k, v)]
  | p :: t, k, v => if p.1 = k then (p.1, v) :: t else p :: setK t k v

/-- Update `d[k] = f d[k]` on a `defaultdict` with default `d₀`
(e.g. `counter[k] += 1` is `updK counter k (fun n => n + 1) 0`). -/
def updK {κ α : Type} [DecidableEq κ] : List (κ × α) → κ → (α → α) → α → List (κ × α)
  | [], k, f, d₀ => [(k, f d₀)]
  | p :: t, k, f, d₀ => if p.1 = k then (p.1, f p.2) :: t else p :: updK t k f d₀

/-! ### Data model

The journey records consumed by `graph.py` (see the JSON produced by
`synthetic_longitudinal.py` / `add_interventions.py`). -/

/-- One distortion detection inside a journal entry
(`{'type': ..., 'confidence': ...}`; the `phrase` field is never read by
the graph or retrieval code and is omitted). -/
structure Distortion where
  dtype : String
  confidence : ℚ
deriving DecidableEq

/-- One journal entry (`{'distortions': ..., 'interventions_used': ...,
'measured_severity': ...}`); a missing `interventions_used` key is
modelled by the empty list, which the source treats identically. -/
structure Entry where
  distortions : List Distortion
  interventionsUsed : List String
  measuredSeverity : ℚ
deriving DecidableEq

/-- One user journey record. -/
structure Journey where
  userId : String
  journeyType : String
  entries : List Entry
  initialSeverity : ℚ
  finalSeverity : ℚ
  improvement : ℚ
  assignedInterventions : List String
deriving DecidableEq

/-- The list of distortion type names of one entry
(`[d['type'] for d in entry['distortions']]`). -/
def entryDistTypes (e : Entry) : List String :=
  e.distortions.map (fun d => d.dtype)

/-- All distortion type names mentioned anywhere in a list of journeys,
one representative per name (`all_distortions` in
`build_global_intervention_graph`; Python builds a `set`, whose
iteration order is unspecified — no stated property depends on the
order, only on membership). -/
def allDistortions (js : List Journey) : List String :=
  (js.flatMap (fun j => j.entries.flatMap entryDistTypes)).dedup

/-- All intervention names mentioned anywhere (`all_interventions`). -/
def allInterventions (js : List Journey) : List String :=
  (js.flatMap (fun j => j.entries.flatMap (fun e => e.interventionsUsed))).dedup

/-! ### Global graph builder (`build_global_intervention_graph`) -/

/-- Lexicographic code-point comparison of character lists (the order
Python uses on strings). -/
def strLtAux : List Char → List Char → Bool
  | [], [] => false
  | [], _ :: _ => true
  | _ :: _, [] => false
  | a :: as, b :: bs =>
    if a.val < b.val then true else if b.val < a.val then false else strLtAux as bs

/-- Python `a < b` on strings. -/
def strLt (a b : String) : Bool :=
  strLtAux a.data b.data

/-- `tuple(sorted([d1, d2]))` for two strings (a two-element `sorted`
swaps exactly when the second element is smaller). -/
def sortPair (a b : String) : String × String :=
  if strLt b a then (b, a) else (a, b)

/-- The accumulators of the first pass of `build_global_intervention_graph`:
`distortion_cooccurrence`, `intervention_distortion_links` (flattened to
pairs; the nested-dict iteration order is immaterial to every stated
property), `intervention_outcomes`, `distortion_counts`,
`distortion_confidence`. -/
structure GAcc where
  cooc : List ((String × String) × ℕ)
  links : List ((String × String) × ℕ)
  outcomes : List (String × (ℚ × ℕ))
  dcounts : List (String × ℕ)
  dconf : List (String × ℚ)
deriving DecidableEq

/-- `distortion_counts[d['type']] += 1; distortion_confidence[d['type']] += d['confidence']`. -/
def gaccDistortion (acc : GAcc) (d : Distortion) : GAcc :=
  { acc with
    dcounts := updK acc.dcounts d.dtype (fun n => n + 1) 0
    dconf := updK acc.dconf d.dtype (fun q => q + d.confidence) 0 }

/-- Inner loop `for d2 in distortions[i+1:]` of the global pair count. -/
def gaccPairsInner (acc : GAcc) (d1 : String) (rest : List String) : GAcc :=
  rest.foldl (fun a d2 => { a with cooc := updK a.cooc (sortPair d1 d2) (fun n => n + 1) 0 }) acc

/-- Outer loop `for i, d1 in enumerate(distortions)` of the global pair count. -/
def gaccPairs (acc : GAcc) : List String → GAcc
  | [] => acc
  | d1 :: rest => gaccPairs (gaccPairsInner acc d1 rest) rest

/-- Body of `for intervention in interventions`: bump every
`(intervention, distortion)` link of the entry, and if the journey's
improvement is positive add the improvement to this intervention's
outcome sum and bump its outcome count. -/
def gaccInterv (imp : ℚ) (types : List String) (acc : GAcc) (iv : String) : GAcc :=
  let acc := types.foldl
    (fun a dt => { a with links := updK a.links (iv, dt) (fun n => n + 1) 0 }) acc
  if 0 < imp then
    { acc with outcomes := updK acc.outcomes iv (fun p => (p.1 + imp, p.2 + 1)) (0, 0) }
  else acc

/-- Per-entry accumulation of the global builder's first pass. -/
def gaccEntry (imp : ℚ) (acc : GAcc) (e : Entry) : GAcc :=
  let types := entryDistTypes e
  let acc := e.distortions.foldl gaccDistortion acc
  let acc := gaccPairs acc types
  e.interventionsUsed.foldl (gaccInterv imp types) acc

/-- Per-journey accumulation (`improvement = journey['improvement']`). -/
def gaccJourney (acc : GAcc) (j : Journey) : GAcc :=
  j.entries.foldl (gaccEntry j.improvement) acc

/-- The accumulator state after the whole first pass. -/
def gaccAll (js : List Journey) : GAcc :=
  js.foldl gaccJourney ⟨[], [], [], [], []⟩

/-- Node payload of the global graph: either a distortion node
(`total_occurrences`, `total_confidence`) or an intervention node
(`avg_improvement`). -/
inductive GNodeData where
  | dist (totalOccurrences : ℕ) (totalConfidence : ℚ)
  | interv (avgImprovement : ℚ)
deriving DecidableEq

/-- Edge payload of the global graph; `eff` is the `effectiveness`
attribute, present on `targets` edges only. -/
structure GEdge where
  weight : ℕ
  etype : String
  eff : Option ℚ
deriving DecidableEq

/-- The global intervention graph (a networkx `DiGraph`: node list and
keyed edge list, each in insertion order). -/
structure GGraph where
  nodes : List (String × GNodeData)
  edges : List ((String × String) × GEdge)
deriving DecidableEq

/-- `intervention_outcomes[iv]['total_improvement'] / ...['count']` when the
count is positive, else `0` (used for both `avg_improvement` and the
`effectiveness` edge attribute). -/
def outcomeAvg (acc : GAcc) (iv : String) : ℚ :=
  let o := getKD acc.outcomes iv (0, 0)
  if 0 < o.2 then o.1 / (o.2 : ℚ) else 0

/-- `build_global_intervention_graph(all_journeys)`.  Distortion nodes are
added first, then intervention nodes, then `co_occurs` edges (pair count
at least `len(all_journeys) * 0.1`), then `targets` edges (link count at
least 2).  The appends mirror networkx insertions: for the disjoint
distortion/intervention vocabularies assumed by every theorem below the
inserted keys are pairwise distinct, so append coincides with
`add_node`/`add_edge`. -/
def buildGlobalIntvGraph (js : List Journey) : GGraph :=
  let acc := gaccAll js
  let dnodes := (allDistortions js).map
    (fun d => (d, GNodeData.dist (getKD acc.dcounts d 0) (getKD acc.dconf d 0)))
  let inodes := (allInterventions js).map
    (fun iv => (iv, GNodeData.interv (outcomeAvg acc iv)))
  let thr : ℚ := (js.length : ℚ) * (1 / 10)
  let coEdges := acc.cooc.filterMap
    (fun p => if thr ≤ (p.2 : ℚ) then some (p.1, GEdge.mk p.2 "co_occurs" none) else none)
  let tEdges := acc.links.filterMap
    (fun p => if 2 ≤ p.2 then
        some (p.1, GEdge.mk p.2 "targets" (some (outcomeAvg acc p.1.1))) else none)
  { nodes := dnodes ++ inodes, edges := coEdges ++ tEdges }

/-- The `avg_improvement` attribute of a node, when it is an intervention node. -/
def avgImprovementOf (g : GGraph) (x : String) : Option ℚ :=
  match getK g.nodes x with
  | some (GNodeData.interv a) => some a
  | _ => none

/-- Weight of the `co_occurs` edge between `a` and `b` of the global
graph, if present. -/
def gCoEdgeWeight (g : GGraph) (a b : String) : Option ℕ :=
  (g.edges.find? (fun e => decide (e.1 = (a, b) ∧ e.2.etype = "co_occurs"))).map
    (fun e => e.2.weight)

/-! ### Personal graph builder (`build_personal_graph`) -/

/-- Node payload of a personal graph: a distortion node
(`occurrences`, `total_confidence`) or an intervention node (`uses` plus,
after the effectiveness pass, `avg_severity_change` and
`effectiveness_score`). -/
inductive PNodeData where
  | dist (occurrences : ℕ) (totalConfidence : ℚ)
  | interv (uses : ℕ) (effect : Option (ℚ × ℚ))
deriving DecidableEq

/-- Edge payload of a personal graph (`weight`, `edge_type`). -/
structure PEdge where
  weight : ℕ
  etype : String
deriving DecidableEq

/-- Attribute values occurring in exports and metadata bags. -/
inductive Val where
  | num (q : ℚ)
  | str (s : String)
  | strList (l : List String)
deriving DecidableEq

/-- The in-pass state of `build_personal_graph`: the graph being built,
the `distortion_pairs` counter and the `intervention_effectiveness`
accumulator (`uses`, `severity_changes`). -/
structure PAcc where
  nodes : List (String × PNodeData)
  edges : List ((String × String) × PEdge)
  pairs : List ((String × String) × ℕ)
  eff : List (String × (ℕ × List ℚ))
deriving DecidableEq

/-- Create-or-update of a distortion node (lines 24-29 of `graph.py`).
If the name already carries an intervention node the source raises a
`KeyError`; that case is unreachable for the disjoint vocabularies
assumed by every theorem below and is modelled as a no-op. -/
def paccDistortion (st : PAcc) (d : Distortion) : PAcc :=
  match getK st.nodes d.dtype with
  | none =>
      { st with nodes := st.nodes ++ [(d.dtype, PNodeData.dist 1 d.confidence)] }
  | some (PNodeData.dist occ conf) =>
      { st with nodes := setK st.nodes d.dtype (PNodeData.dist (occ + 1) (conf + d.confidence)) }
  | some (PNodeData.interv _ _) => st

/-- Inner loop `for d2 in distortions_in_entry[idx+1:]`: the personal pair
counter is keyed by the ordered pair `(d1, d2)` exactly as in the source
(no `sorted`, unlike the global builder). -/
def paccPairsInner (st : PAcc) (d1 : String) (rest : List String) : PAcc :=
  rest.foldl (fun a d2 => { a with pairs := updK a.pairs (d1, d2) (fun n => n + 1) 0 }) st

/-- Outer loop `for idx, d1 in enumerate(distortions_in_entry)`. -/
def paccPairs (st : PAcc) : List String → PAcc
  | [] => st
  | d1 :: rest => paccPairs (paccPairsInner st d1 rest) rest

/-- Lines 37-40: create the intervention node on first sight, then bump
its `uses`.  The `KeyError` case of the source (a distortion node with
the same name already exists, so the `uses` key is missing) is
unreachable under the disjointness hypotheses of the theorems and is
modelled as a no-op. -/
def paccIntervNode (iv : String) (st : PAcc) : PAcc :=
  match getK st.nodes iv with
  | none => { st with nodes := st.nodes ++ [(iv, PNodeData.interv 1 none)] }
  | some (PNodeData.interv u e) =>
      { st with nodes := setK st.nodes iv (PNodeData.interv (u + 1) e) }
  | some (PNodeData.dist _ _) => st

/-- Lines 42-47: add or increment an `addresses` edge from the
intervention towards every distortion of the entry (the increment
touches only the weight). -/
def paccIntervEdges (types : List String) (iv : String) (st : PAcc) : PAcc :=
  types.foldl
    (fun a dt =>
      match getK a.edges (iv, dt) with
      | some e => { a with edges := setK a.edges (iv, dt) (PEdge.mk (e.weight + 1) e.etype) }
      | none => { a with edges := a.edges ++ [((iv, dt), PEdge.mk 1 "addresses")] }) st

/-- Lines 48-53: when a next entry exists, record the severity delta
against the intervention. -/
def paccIntervDelta (delta : Option ℚ) (iv : String) (st : PAcc) : PAcc :=
  match delta with
  | some dv => { st with eff := updK st.eff iv (fun p => (p.1, p.2 ++ [dv])) (0, []) }
  | none => st

/-- Line 54: bump the effectiveness `uses` counter. -/
def paccIntervUses (iv : String) (st : PAcc) : PAcc :=
  { st with eff := updK st.eff iv (fun p => (p.1 + 1, p.2)) (0, []) }

/-- Body of `for intervention in entry['interventions_used']` (lines
36-54), as the sequence of its four statements. -/
def paccInterv (types : List String) (delta : Option ℚ) (st : PAcc) (iv : String) : PAcc :=
  paccIntervUses iv (paccIntervDelta delta iv (paccIntervEdges types iv (paccIntervNode iv st)))

/-- Processing of one entry of the journey; `next?` is the following
entry when one exists (used for the severity delta
`entries[i+1]['measured_severity'] - entry['measured_severity']`). -/
def paccEntry (st : PAcc) (e : Entry) (next? : Option Entry) : PAcc :=
  let types := entryDistTypes e
  let st := e.distortions.foldl paccDistortion st
  let st := paccPairs st types
  let delta : Option ℚ := next?.map (fun n => n.measuredSeverity - e.measuredSeverity)
  e.interventionsUsed.foldl (paccInterv types delta) st

/-- The single pass over the journey's entries, in order. -/
def paccEntries (st : PAcc) : List Entry → PAcc
  | [] => st
  | e :: rest => paccEntries (paccEntry st e rest.head?) rest

/-- Materialization pass (lines 56-58): a `co_occurs` edge for every pair
whose counter is at least 2, written with networkx `add_edge` semantics
(replace the payload if the key exists, else append). -/
def materializeCo (edges : List ((String × String) × PEdge))
    (pairs : List ((String × String) × ℕ)) : List ((String × String) × PEdge) :=
  pairs.foldl
    (fun es p => if 2 ≤ p.2 then setK es p.1 (PEdge.mk p.2 "co_occurs") else es) edges

/-- Effectiveness pass (lines 60-64): for every intervention with at least
one recorded severity delta, set `avg_severity_change` to the mean delta
and `effectiveness_score` to its negation. -/
def applyEffectiveness (nodes : List (String × PNodeData))
    (eff : List (String × (ℕ × List ℚ))) : List (String × PNodeData) :=
  eff.foldl
    (fun ns p =>
      if p.2.2 = [] then ns
      else
        match getK ns p.1 with
        | some (PNodeData.interv uses _) =>
            let avg := p.2.2.sum / (p.2.2.length : ℚ)
            setK ns p.1 (PNodeData.interv uses (some (avg, -avg)))
        | _ => ns) nodes

/-- A personal graph: nodes, keyed edges and the `G.graph` metadata bag. -/
structure PGraph where
  nodes : List (String × PNodeData)
  edges : List ((String × String) × PEdge)
  meta : List (String × Val)
deriving DecidableEq

/-- `build_personal_graph(user_journey)`. -/
def buildPersonalGraph (j : Journey) : PGraph :=
  let st := paccEntries ⟨[], [], [], []⟩ j.entries
  { nodes := applyEffectiveness st.nodes st.eff
    edges := materializeCo st.edges st.pairs
    meta := [("user_id", Val.str j.userId),
             ("journey_type", Val.str j.journeyType),
             ("initial_severity", Val.num j.initialSeverity),
             ("final_severity", Val.num j.finalSeverity),
             ("improvement", Val.num j.improvement),
             ("interventions_assigned", Val.strList j.assignedInterventions)] }

/-- Weight of the `co_occurs` edge `(a, b)` of a personal graph, if present. -/
def pCoEdgeWeight (g : PGraph) (a b : String) : Option ℕ :=
  (g.edges.find? (fun e => decide (e.1 = (a, b) ∧ e.2.etype = "co_occurs"))).map
    (fun e => e.2.weight)

/-! ### Export (`export_for_gear`) -/

/-- An exported node record `{'id': ..., 'type': ..., **attrs}`; `attrs`
holds everything except `id`, starting with the `type` tag (the export
renames the `node_type` attribute to `type`). -/
structure ExpNode where
  id : String
  attrs : List (String × Val)
deriving DecidableEq

/-- An exported edge record `{'source': ..., 'target': ..., **attrs}`. -/
structure ExpEdge where
  src : String
  tgt : String
  attrs : List (String × Val)
deriving DecidableEq

/-- Export of one personal-graph node, in the source's dict insertion
order (`type`, then the remaining attributes). -/
def exportPNode (p : String × PNodeData) : ExpNode :=
  match p with
  | (n, PNodeData.dist occ conf) =>
      ⟨n, [("type", Val.str "distortion"), ("occurrences", Val.num occ),
           ("total_confidence", Val.num conf)]⟩
  | (n, PNodeData.interv uses none) =>
      ⟨n, [("type", Val.str "intervention"), ("uses", Val.num uses)]⟩
  | (n, PNodeData.interv uses (some pr)) =>
      ⟨n, [("type", Val.str "intervention"), ("uses", Val.num uses),
           ("avg_severity_change", Val.num pr.1), ("effectiveness_score", Val.num pr.2)]⟩

/-- Export of one personal-graph edge (`{'source': u, 'target': v, **G[u][v]}`). -/
def exportPEdge (p : (String × String) × PEdge) : ExpEdge :=
  ⟨p.1.1, p.1.2, [("weight", Val.num p.2.weight), ("edge_type", Val.str p.2.etype)]⟩

/-- Export of one global-graph node. -/
def exportGNode (p : String × GNodeData) : ExpNode :=
  match p with
  | (n, GNodeData.dist t c) =>
      ⟨n, [("type", Val.str "distortion"), ("total_occurrences", Val.num t),
           ("total_confidence", Val.num c)]⟩
  | (n, GNodeData.interv a) =>
      ⟨n, [("type", Val.str "intervention"), ("avg_improvement", Val.num a)]⟩

/-- Export of one global-graph edge; `targets` edges additionally carry
`effectiveness`. -/
def exportGEdge (p : (String × String) × GEdge) : ExpEdge :=
  ⟨p.1.1, p.1.2,
    [("weight", Val.num p.2.weight), ("edge_type", Val.str p.2.etype)] ++
      (match p.2.eff with
       | some q => [("effectiveness", Val.num q)]
       | none => [])⟩

/-- The exported node-list/edge-list form of a graph (the per-graph part
of the structure written by `export_for_gear`). -/
structure ExpGraph where
  nodes : List ExpNode
  edges : List ExpEdge
deriving DecidableEq

/-- Export of a personal graph (node list, edge list; the metadata bag is
exported verbatim as `dict(G.graph)` and is carried separately). -/
def exportPersonal (g : PGraph) : ExpGraph :=
  ⟨g.nodes.map exportPNode, g.edges.map exportPEdge⟩

/-- Export of the global graph. -/
def exportGlobal (g : GGraph) : ExpGraph :=
  ⟨g.nodes.map exportGNode, g.edges.map exportGEdge⟩

/-! ### Retrieval engine (`gear_retrieval.py`) -/

/-- A rebuilt networkx graph as produced by `_build_networkx_graph`:
node attribute bags, and edges carrying only a `weight` (the import
reads `edge['source']`, `edge['target']` and `edge.get('weight', 1)` and
discards every other edge attribute). -/
structure NXGraph where
  nodes : List (String × List (String × Val))
  edges : List ((String × String) × ℚ)
deriving DecidableEq

/-- `G.add_node(id, **attrs)` for a fresh or existing node (existing
attribute bags are merged key by key, as networkx does). -/
def nxAddNode (g : NXGraph) (id : String) (attrs : List (String × Val)) : NXGraph :=
  match getK g.nodes id with
  | some b => { g with nodes := setK g.nodes id (attrs.foldl (fun a p => setK a p.1 p.2) b) }
  | none => { g with nodes := g.nodes ++ [(id, attrs)] }

/-- Add a node with an empty attribute bag when absent (what `add_edge`
does to a missing endpoint). -/
def nxEnsureNode (g : NXGraph) (id : String) : NXGraph :=
  if (getK g.nodes id).isSome then g else { g with nodes := g.nodes ++ [(id, [])] }

/-- `G.add_edge(source, target, weight=w)`. -/
def nxAddEdgeW (g : NXGraph) (s t : String) (w : ℚ) : NXGraph :=
  let g := nxEnsureNode g s
  let g := nxEnsureNode g t
  match getK g.edges (s, t) with
  | some _ => { g with edges := setK g.edges (s, t) w }
  | none => { g with edges := g.edges ++ [((s, t), w)] }

/-- The numeric value of `edge.get('weight', 1)`; exported weights are
always numeric. -/
def valWeight : Option Val → ℚ
  | some (Val.num q) => q
  | _ => 1

/-- `_build_networkx_graph(nodes, edges)`: add every node with its
attribute bag (minus `id`), then every edge keeping only its weight. -/
def buildNetworkxGraph (nodes : List ExpNode) (edges : List ExpEdge) : NXGraph :=
  let g := nodes.foldl (fun g n => nxAddNode g n.id n.attrs) ⟨[], []⟩
  edges.foldl (fun g e => nxAddEdgeW g e.src e.tgt (valWeight (getK e.attrs "weight"))) g

/-- A loaded personal graph: the rebuilt graph plus the metadata bag
restored by `G.graph.update(user_data['metadata'])`. -/
structure PersonalNX where
  graph : NXGraph
  meta : List (String × Val)
deriving DecidableEq

/-- The loaded retrieval engine: the rebuilt global graph and the
`user_id → personal graph` mapping, in file order. -/
structure Engine where
  globalGraph : NXGraph
  personalGraphs : List (String × PersonalNX)
deriving DecidableEq

/-- Loading of one personal graph in the engine constructor: rebuild the
graph from its exported node/edge lists and restore the metadata bag
verbatim (`G.graph.update(user_data['metadata'])`). -/
def loadPersonal (pg : ExpGraph) (meta : List (String × Val)) : PersonalNX :=
  ⟨buildNetworkxGraph pg.nodes pg.edges, meta⟩

/-- Weight of the directed global-graph edge `a → b`
(`self.global_graph.has_edge(d1, d2)` / `self.global_graph[d1][d2]['weight']`). -/
def nxEdgeWeight (g : NXGraph) (a b : String) : Option ℚ :=
  getK g.edges (a, b)

/-- The ephemeral query graph of `extract_user_pattern`. -/
structure QGraph where
  nodes : List String
  edges : List ((String × String) × ℚ)
deriving DecidableEq

/-- `G.add_node(d)` on the query graph (duplicates collapse). -/
def qAddNode (g : QGraph) (d : String) : QGraph :=
  if d ∈ g.nodes then g else { g with nodes := g.nodes ++ [d] }

/-- `G.add_edge(d1, d2, weight=w)` on the query graph; both endpoints are
always already nodes here, because they come from the input list. -/
def qSetEdge (g : QGraph) (a b : String) (w : ℚ) : QGraph :=
  match getK g.edges (a, b) with
  | some _ => { g with edges := setK g.edges (a, b) w }
  | none => { g with edges := g.edges ++ [((a, b), w)] }

/-- Inner loop `for d2 in distortions[i+1:]` of `extract_user_pattern`:
probe the global graph only in the `d1 → d2` direction. -/
def extractInner (gg : NXGraph) (q : QGraph) (d1 : String) (rest : List String) : QGraph :=
  rest.foldl
    (fun q d2 =>
      match nxEdgeWeight gg d1 d2 with
      | some w => qSetEdge q d1 d2 w
      | none => q) q

/-- Outer loop `for i, d1 in enumerate(distortions)`. -/
def extractPairs (gg : NXGraph) (q : QGraph) : List String → QGraph
  | [] => q
  | d1 :: rest => extractPairs gg (extractInner gg q d1 rest) rest

/-- `extract_user_pattern(distortions)`. -/
def extractUserPattern (gg : NXGraph) (ds : List String) : QGraph :=
  extractPairs gg (ds.foldl qAddNode ⟨[], []⟩) ds

/-! ### Similarity (`_compute_graph_similarity`, `find_similar_patterns`) -/

/-- The fragment of a networkx `DiGraph` that the similarity and
centrality computations read: the node-id list and the directed
edge-pair list. -/
structure Digraph where
  nodes : List String
  edges : List (String × String)
deriving DecidableEq

/-- View of a query graph. -/
def QGraph.toDigraph (q : QGraph) : Digraph :=
  ⟨q.nodes, q.edges.map (fun e => e.1)⟩

/-- View of a rebuilt networkx graph. -/
def NXGraph.toDigraph (g : NXGraph) : Digraph :=
  ⟨g.nodes.map (fun p => p.1), g.edges.map (fun e => e.1)⟩

/-- `G.degree(n)` of a `DiGraph`: out-degree plus in-degree (a self loop
counts twice). -/
def Digraph.deg (g : Digraph) (n : String) : ℕ :=
  (g.edges.countP (fun e => decide (e.1 = n))) + (g.edges.countP (fun e => decide (e.2 = n)))

/-- networkx `degree_centrality`: every node of a graph with at most one
node gets centrality 1, otherwise `degree / (len(G) - 1)`. -/
def degCent (g : Digraph) (n : String) : ℚ :=
  if g.nodes.length ≤ 1 then 1 else (g.deg n : ℚ) / ((g.nodes.length : ℚ) - 1)

/-- `_compute_graph_similarity(G1, G2)`: 0.4 times the node-set Jaccard
index plus 0.3 times the edge-set Jaccard index (0 when either edge set
is empty) plus 0.3 times the mean, over shared nodes, of
`1 - |deg_centrality₁(n) - deg_centrality₂(n)|` (0 when no node is
shared); 0 outright when either node set is empty.  The `try/except`
around the centrality term is dead code for nonempty graphs: networkx
`degree_centrality` raises on no input produced here. -/
def computeGraphSimilarity (g1 g2 : Digraph) : ℚ :=
  let n1 := g1.nodes.toFinset
  let n2 := g2.nodes.toFinset
  if n1 = ∅ ∨ n2 = ∅ then 0
  else
    let nodeJac : ℚ := ((n1 ∩ n2).card : ℚ) / ((n1 ∪ n2).card : ℚ)
    let e1 := g1.edges.toFinset
    let e2 := g2.edges.toFinset
    let edgeJac : ℚ :=
      if e1 ≠ ∅ ∧ e2 ≠ ∅ then ((e1 ∩ e2).card : ℚ) / ((e1 ∪ e2).card : ℚ) else 0
    let shared := n1 ∩ n2
    let centSim : ℚ :=
      if shared ≠ ∅ then
        (shared.sum (fun n => 1 - |degCent g1 n - degCent g2 n|)) / (shared.card : ℚ)
      else 0
    2 / 5 * nodeJac + 3 / 10 * edgeJac + 3 / 10 * centSim

/-- Stable insertion of `x` into a list sorted by descending key `w`:
`x` goes after every element with a strictly larger key and before the
first element whose key is not larger. -/
def insertDescBy {α : Type} (w : α → ℚ) (x : α) : List α → List α
  | [] => [x]
  | y :: ys => if w x < w y then y :: insertDescBy w x ys else x :: y :: ys

/-- Stable descending sort by key `w`, modelling Python's
`list.sort(key=..., reverse=True)` (Timsort is stable, and `reverse=True`
keeps equal-key elements in their original order). -/
def sortDescBy {α : Type} (w : α → ℚ) : List α → List α
  | [] => []
  | x :: xs => insertDescBy w x (sortDescBy w xs)

/-- `find_similar_patterns(query_distortions, top_k)`: build the query
graph once, score every personal graph, sort by similarity descending
(stable) and truncate to `top_k`. -/
def findSimilarPatterns (e : Engine) (ds : List String) (topK : ℕ) :
    List (String × ℚ × List (String × Val)) :=
  let q := (extractUserPattern e.globalGraph ds).toDigraph
  let sims := e.personalGraphs.map
    (fun p => (p.1, computeGraphSimilarity q p.2.graph.toDigraph, p.2.meta))
  (sortDescBy (fun s => s.2.1) sims).take topK

/-! ### Centrality and keystones (`find_keystone_distortions`) -/

/-- Successor list of a node, in edge insertion order (networkx
adjacency order). -/
def adjOf (edges : List ((String × String) × ℚ)) (v : String) : List String :=
  edges.filterMap (fun e => if e.1.1 = v then some e.1.2 else none)

/-- Depth-first enumeration of the simple paths from `current` (already
the last element of `visited`) to `target` that use at most `budget`
further edges, in networkx `all_simple_paths` emission order: a child
equal to the target completes a path, a visited child is skipped, any
other child is explored recursively. -/
def spAux (adj : String → List String) (target : String) :
    ℕ → List String → String → List (List String)
  | 0, _, _ => []
  | b + 1, visited, current =>
    (adj current).flatMap
      (fun child =>
        if child ∈ visited then []
        else if child = target then [visited ++ [child]]
        else spAux adj target b (visited ++ [child]) child)

/-- `nx.all_simple_paths(G, s, t, cutoff)` for `s ≠ t`: every simple
directed path from `s` to `t` with at most `cutoff` edges. -/
def simplePathsUpTo (adj : String → List String) (s t : String) (cutoff : ℕ) :
    List (List String) :=
  spAux adj t cutoff [s] s

/-- All simple paths from `s` to `t` (the node count bounds the edge
count of any simple path). -/
def allSimplePathsD (g : Digraph) (s t : String) : List (List String) :=
  simplePathsUpTo (fun v => g.edges.filterMap (fun e => if e.1 = v then some e.2 else none))
    s t g.nodes.length

/-- The shortest simple paths from `s` to `t` (every shortest path of a
digraph is simple, so these are exactly the shortest paths). -/
def shortestPathsD (g : Digraph) (s t : String) : List (List String) :=
  let ps := allSimplePathsD g s t
  match (ps.map List.length).min? with
  | none => []
  | some m => ps.filter (fun p => p.length = m)

/-- The pair-dependency `σ_st(v) / σ_st` of Brandes' betweenness (the
fraction of shortest `s → t` paths passing through `v`), 0 when `t` is
unreachable from `s`. -/
def pairDependency (g : Digraph) (s t v : String) : ℚ :=
  let sps := shortestPathsD g s t
  if sps.length = 0 then 0
  else ((sps.countP (fun p => decide (v ∈ p))) : ℚ) / (sps.length : ℚ)

/-- networkx `betweenness_centrality(G)` (directed, `normalized=True`,
`endpoints=False`): the sum over ordered pairs of distinct nodes other
than `v` of the pair dependency, rescaled by `1/((n-1)(n-2))` when the
graph has more than two nodes. -/
def betweennessCentrality (g : Digraph) (v : String) : ℚ :=
  let raw := (g.nodes.map
    (fun s => (g.nodes.map
      (fun t => if s ≠ t ∧ s ≠ v ∧ t ≠ v then pairDependency g s t v else 0)).sum)).sum
  if 2 < g.nodes.length then
    raw / (((g.nodes.length : ℚ) - 1) * ((g.nodes.length : ℚ) - 2))
  else raw

/-- `find_keystone_distortions(distortions)`: build the query graph,
return `[]` when it has no node, otherwise score every node by
`0.6 * betweenness + 0.4 * degree centrality` and sort descending.  The
`except` fallback to plain degree is dead code: neither centrality
routine raises on a nonempty digraph. -/
def findKeystoneDistortions (gg : NXGraph) (ds : List String) : List (String × ℚ) :=
  let q := extractUserPattern gg ds
  if q.nodes = [] then []
  else
    let d := q.toDigraph
    let scores := q.nodes.map
      (fun n => (n, 6 / 10 * betweennessCentrality d n + 4 / 10 * degCent d n))
    sortDescBy (fun s => s.2) scores

/-! ### Cascades (`find_cascade_paths`) -/

/-- The cascade candidates in discovery order: for every ordered pair of
distinct query-graph nodes, every simple path with at most `maxLen`
edges, kept when it has at least 2 nodes (always true here; the source
keeps the check). -/
def cascadesDiscovered (q : QGraph) (maxLen : ℕ) : List (List String) :=
  q.nodes.flatMap
    (fun s => q.nodes.flatMap
      (fun t =>
        if s ≠ t then
          (simplePathsUpTo (adjOf q.edges) s t maxLen).filter (fun p => 2 ≤ p.length)
        else []))

/-- The score of a path: the sum of the weights of its consecutive edges
(`query_graph[path[i]][path[i+1]].get('weight', 1)`). -/
def pathWeight (q : QGraph) : List String → ℚ
  | a :: b :: rest => (getK q.edges (a, b)).getD 1 + pathWeight q (b :: rest)
  | _ => 0

/-- `find_cascade_paths(distortions, max_length)`: score every discovered
cascade, sort by score descending (stable) and return the first 10 paths. -/
def findCascadePaths (gg : NXGraph) (ds : List String) (maxLen : ℕ) : List (List String) :=
  let q := extractUserPattern gg ds
  let cw := (cascadesDiscovered q maxLen).map (fun p => (p, pathWeight q p))
  ((sortDescBy (fun c => c.2) cw).take 10).map (fun c => c.1)

/-! ### Outcomes and the recommendation bundle
(`_analyze_outcomes`, `retrieve_interventions`) -/

/-- Python `round(x, 3)` modelled on rationals (round to the nearest
multiple of 1/1000; Python rounds exact halves to even, this model
rounds them up — no stated property evaluates `round` at an exact half). -/
def round3 (q : ℚ) : ℚ :=
  (⌊q * 1000 + 1 / 2⌋ : ℚ) / 1000

/-- Numeric projection of an attribute value. -/
def valNum? : Val → Option ℚ
  | Val.num q => some q
  | _ => none

/-- First element of maximal count, Python `max(items, key=lambda x: x[1])`
(ties keep the earliest item). -/
def firstMax (l : List (Val × ℕ)) : Option Val :=
  (l.foldl
    (fun best p =>
      match best with
      | none => some p
      | some b => if b.2 < p.2 then some p else some b) none).map (fun p => p.1)

/-- `_analyze_outcomes(similar_users)`: on the empty list, a dict with
only `success_rate` and `avg_improvement`, both 0; otherwise the four
keys `num_similar_cases`, `avg_improvement`, `most_common_trajectory`
and `success_rate` in source order.  The metadata values read here
(`improvement`, `journey_type`) are numeric respectively arbitrary
attribute values, exactly as exported. -/
def analyzeOutcomes (similar : List (String × ℚ × List (String × Val))) :
    List (String × Option Val) :=
  if similar = [] then
    [("success_rate", some (Val.num 0)), ("avg_improvement", some (Val.num 0))]
  else
    let improvements : List ℚ :=
      similar.filterMap (fun s => (getK s.2.2 "improvement").bind valNum?)
    let jts : List Val := similar.filterMap (fun s => getK s.2.2 "journey_type")
    let jcounts : List (Val × ℕ) := jts.foldl (fun l v => updK l v (fun n => n + 1) 0) []
    [("num_similar_cases", some (Val.num (similar.length : ℚ))),
     ("avg_improvement",
       some (Val.num (if improvements = [] then 0
         else round3 (improvements.sum / (improvements.length : ℚ))))),
     ("most_common_trajectory", firstMax jcounts),
     ("success_rate",
       some (Val.num (if improvements = [] then 0
         else ((improvements.countP (fun i => decide (0 < i))) : ℚ) / (improvements.length : ℚ))))]

/-- The recommendation bundle returned by `retrieve_interventions`. -/
structure Bundle where
  queryDistortions : List String
  similarUsers : List (String × ℚ × Option Val × Option Val)
  keystoneDistortions : List (String × ℚ)
  cascadePatterns : List String
  outcomes : List (String × Option Val)
deriving DecidableEq

/-- `retrieve_interventions(distortions, top_k)`: compose similarity
search, keystone ranking (top 3, rounded), cascade extraction (top 5,
rendered with arrows, default `max_length=4`) and outcome aggregation. -/
def retrieveInterventions (e : Engine) (ds : List String) (topK : ℕ) : Bundle :=
  let similar := findSimilarPatterns e ds topK
  let keystones := findKeystoneDistortions e.globalGraph ds
  let cascades := findCascadePaths e.globalGraph ds 4
  { queryDistortions := ds
    similarUsers := similar.map
      (fun s => (s.1, round3 s.2.1, getK s.2.2 "journey_type", getK s.2.2 "improvement"))
    keystoneDistortions := (keystones.take 3).map (fun p => (p.1, round3 p.2))
    cascadePatterns := (cascades.take 5).map (fun c => String.intercalate " → " c)
    outcomes := analyzeOutcomes similar }

/-! ### Specification formulas

Closed-form counterparts of the accumulators, used to state the
properties, plus definitions that follow the claims' own words where a
claim has to be compared against the code. -/

/-- Number of times a journey's entries use intervention `x`
(one per occurrence in an `interventions_used` list). -/
def journeyUses (j : Journey) (x : String) : ℕ :=
  (j.entries.map (fun e => e.interventionsUsed.count x)).sum

/-- The improvement sum the global builder accumulates for `x`: each
journey with positive improvement contributes its improvement once per
use of `x`. -/
def qualSum (js : List Journey) (x : String) : ℚ :=
  (js.map (fun j => if 0 < j.improvement then j.improvement * (journeyUses j x : ℚ) else 0)).sum

/-- The outcome count the global builder accumulates for `x`. -/
def qualCount (js : List Journey) (x : String) : ℕ :=
  (js.map (fun j => if 0 < j.improvement then journeyUses j x else 0)).sum

/-- Whether some entry of the journey uses intervention `x`. -/
def journeyUsed (j : Journey) (x : String) : Bool :=
  j.entries.any (fun e => x ∈ e.interventionsUsed)

/-- Claim-side quantity for C1, following the claim's words: the
arithmetic mean of the improvement values of the distinct journeys with
positive improvement that used the intervention (0 when there is none). -/
def claimDistinctMeanImprovement (js : List Journey) (x : String) : ℚ :=
  let q := js.filter (fun j => journeyUsed j x && decide (0 < j.improvement))
  if q.length = 0 then 0 else (q.map (fun j => j.improvement)).sum / (q.length : ℚ)

/-- Number of ordered index pairs `i < j` of a list with `l[i] = a` and
`l[j] = b`. -/
def orderedPairsIn (a b : String) : List String → ℕ
  | [] => 0
  | x :: xs => (if x = a then xs.count b else 0) + orderedPairsIn a b xs

/-- The ordered-pair co-occurrence count of a journey: what the personal
builder's `distortion_pairs[(a, b)]` holds after the pass. -/
def orderedPairCountJ (j : Journey) (a b : String) : ℕ :=
  (j.entries.map (fun e => orderedPairsIn a b (entryDistTypes e))).sum

/-- Claim-side quantity for C4, following the claim's words: the
co-occurrence counter of the unordered pair of the two distinct types
`a ≠ b`, counting a pair of positions regardless of orientation. -/
def claimUnorderedPairCount (j : Journey) (a b : String) : ℕ :=
  orderedPairCountJ j a b + orderedPairCountJ j b a

/-- Number of index pairs `i < j` of a list whose sorted pair is `k`. -/
def sortedPairsIn (k : String × String) : List String → ℕ
  | [] => 0
  | x :: xs => xs.countP (fun y => decide (sortPair x y = k)) + sortedPairsIn k xs

/-- The sorted-pair co-occurrence count over all journeys: what the
global builder's `distortion_cooccurrence[k]` holds after the pass. -/
def globalPairCount (js : List Journey) (k : String × String) : ℕ :=
  (js.map (fun j => (j.entries.map (fun e => sortedPairsIn k (entryDistTypes e))).sum)).sum

/-- Claim-side quantity for C2: the number of journeys in which the
(sorted) pair `k` co-occurs in at least one entry. -/
def pairJourneyCount (js : List Journey) (k : String × String) : ℕ :=
  js.countP (fun j => j.entries.any (fun e => 0 < sortedPairsIn k (entryDistTypes e)))

/-- All distortion type names of a journey's entries, with repetitions. -/
def journeyDistTypes (j : Journey) : List String :=
  j.entries.flatMap entryDistTypes

/-- All intervention names of a journey's entries, with repetitions. -/
def journeyInterventions (j : Journey) : List String :=
  j.entries.flatMap (fun e => e.interventionsUsed)

/-- Disjointness of a journey's distortion and intervention vocabularies
(the data model keeps the two closed vocabularies separate; on a name
clash the source raises a `KeyError`, see `paccDistortion`). -/
def journeyVocabularyOk (j : Journey) : Prop :=
  ∀ x ∈ journeyInterventions j, x ∉ journeyDistTypes j

instance (j : Journey) : Decidable (journeyVocabularyOk j) := by
  unfold journeyVocabularyOk
  infer_instance

/-- Positions `i < j` of the input sequence holding `a` respectively `b`
(the pair condition of `extract_user_pattern`). -/
def occursBefore (ds : List String) (a b : String) : Prop :=
  ∃ i j : ℕ, ∃ hi : i < ds.length, ∃ hj : j < ds.length,
    i < j ∧ ds.get ⟨i, hi⟩ = a ∧ ds.get ⟨j, hj⟩ = b

/-! ### Concrete inputs for the counterexamples and witnesses -/

/-- An entry with the given distortion types (confidence 1/2 each),
interventions and measured severity. -/
def mkEntry (types : List String) (ivs : List String) (sev : ℚ) : Entry :=
  ⟨types.map (fun t => ⟨t, 1 / 2⟩), ivs, sev⟩

/-- Journey using intervention `X` in two entries, improvement 1. -/
def c1j1 : Journey :=
  ⟨"u1", "improving", [mkEntry ["d1"] ["X"] (1 / 2), mkEntry ["d1"] ["X"] (1 / 4)], 1, 0, 1, []⟩

/-- Journey using intervention `X` in one entry, improvement 1/2. -/
def c1j2 : Journey :=
  ⟨"u2", "improving", [mkEntry ["d1"] ["X"] (1 / 2)], 1, 1 / 2, 1 / 2, []⟩

/-- Two-journey cohort where use-weighted and journey-distinct averages differ. -/
def c1js : List Journey := [c1j1, c1j2]

/-- Journey whose single entry contains the distortion pair `A`, `B`. -/
def c2jA : Journey := ⟨"a0", "t", [mkEntry ["A", "B"] [] 0], 0, 0, 0, []⟩

/-- Filler journey with a single unrelated distortion. -/
def c2jC : Journey := ⟨"c0", "t", [mkEntry ["C"] [] 0], 0, 0, 0, []⟩

/-- A cohort of exactly 10 journeys in which the pair `(A, B)` co-occurs
in exactly one journey (one entry). -/
def c2js : List Journey := c2jA :: List.replicate 9 c2jC

/-- One-journey cohort producing a global `co_occurs` edge, for the
export/import round trip. -/
def c3js : List Journey := [⟨"u3", "t", [mkEntry ["A", "B"] [] 0], 0, 0, 0, []⟩]

/-- One-journey cohort whose global graph has one node and no edge. -/
def c3wjs : List Journey := [⟨"w", "t", [mkEntry ["A"] [] 0], 0, 0, 0, []⟩]

/-- Journey whose two entries contain the same two distortion types in
opposite orders. -/
def c4j : Journey :=
  ⟨"u4", "t", [mkEntry ["A", "B"] [] 0, mkEntry ["B", "A"] [] 0], 0, 0, 0, []⟩

/-- Journey whose entries contain the type `X` twice within one entry,
twice over. -/
def c9j : Journey :=
  ⟨"u9", "t", [mkEntry ["X", "X"] [] 0, mkEntry ["X", "X"] [] 0], 0, 0, 0, []⟩

/-- A one-node, zero-edge graph. -/
def c5single : Digraph := ⟨["a"], []⟩

/-- A two-node graph with one edge. -/
def c5pair : Digraph := ⟨["a", "b"], [("a", "b")]⟩

/-- The empty loaded global graph. -/
def nxEmpty : NXGraph := ⟨[], []⟩

/-- An engine loaded with no personal graphs. -/
def engEmpty : Engine := ⟨nxEmpty, []⟩

/-! ## Lemmas: association lists -/

theorem getK_updK {κ α : Type} [DecidableEq κ] (l : List (κ × α)) (k k' : κ) (f : α → α)
    (d : α) :
    getK (updK l k f d) k' = if k' = k then some (f (getKD l k d)) else getK l k' := by
  induction l with
  | nil =>
    by_cases h : k' = k
    · simp [updK, getK, getKD, h]
    · simp [updK, getK, getKD, h, Ne.symm h]
  | cons p t ih =>
    by_cases hpk : p.1 = k
    · by_cases h : k' = k
      · simp [updK, getK, getKD, hpk, h]
      · simp [updK, getK, getKD, hpk, h, Ne.symm h]
    · by_cases hpk' : p.1 = k'
      · have hkk : ¬k' = k := fun hh => hpk (hpk'.trans hh)
        simp [updK, getK, hpk, hpk', hkk]
      · simp [updK, getK, getKD, hpk, hpk', ih]

theorem getKD_updK {κ α : Type} [DecidableEq κ] (l : List (κ × α)) (k k' : κ) (f : α → α)
    (d : α) :
    getKD (updK l k f d) k' d = if k' = k then f (getKD l k d) else getKD l k' d := by
  by_cases h : k' = k <;> simp [getKD, getK_updK, h]

theorem getK_setK {κ α : Type} [DecidableEq κ] (l : List (κ × α)) (k k' : κ) (v : α) :
    getK (setK l k v) k' = if k' = k then some v else getK l k' := by
  induction l with
  | nil =>
    by_cases h : k' = k
    · simp [setK, getK, h]
    · simp [setK, getK, h, Ne.symm h]
  | cons p t ih =>
    by_cases hpk : p.1 = k
    · by_cases h : k' = k
      · simp [setK, getK, hpk, h]
      · simp [setK, getK, hpk, h, Ne.symm h]
    · by_cases hpk' : p.1 = k'
      · have hkk : ¬k' = k := fun hh => hpk (hpk'.trans hh)
        simp [setK, getK, hpk, hpk', hkk]
      · simp [setK, getK, hpk, hpk', ih]

theorem getK_mem {κ α : Type} [DecidableEq κ] {l : List (κ × α)} {k : κ} {v : α}
    (h : getK l k = some v) : (k, v) ∈ l := by
  induction l with
  | nil => simp [getK] at h
  | cons p t ih =>
    obtain ⟨pk, pv⟩ := p
    by_cases hpk : pk = k
    · simp [getK, hpk] at h
      simp [hpk, h]
    · simp [getK, hpk] at h
      simp [ih h]

theorem getK_none_iff {κ α : Type} [DecidableEq κ] (l : List (κ × α)) (k : κ) :
    getK l k = none ↔ k ∉ l.map Prod.fst := by
  induction l with
  | nil => simp [getK]
  | cons p t ih =>
    by_cases hpk : p.1 = k
    · simp [getK, hpk]
    · simp [getK, hpk, ih, Ne.symm hpk]

theorem getK_append_left {κ α : Type} [DecidableEq κ] {l₁ : List (κ × α)} {k : κ} {v : α}
    (l₂ : List (κ × α)) (h : getK l₁ k = some v) : getK (l₁ ++ l₂) k = some v := by
  induction l₁ with
  | nil => simp [getK] at h
  | cons p t ih =>
    by_cases hpk : p.1 = k
    · simp [getK, hpk] at h ⊢
      exact h
    · simp [getK, hpk] at h ⊢
      exact ih h

theorem getK_append_right {κ α : Type} [DecidableEq κ] {l₁ : List (κ × α)} {k : κ}
    (l₂ : List (κ × α)) (h : getK l₁ k = none) : getK (l₁ ++ l₂) k = getK l₂ k := by
  induction l₁ with
  | nil => simp
  | cons p t ih =>
    by_cases hpk : p.1 = k
    · simp [getK, hpk] at h
    · simp [getK, hpk] at h ⊢
      exact ih h

theorem getK_map_pair {κ β : Type} [DecidableEq κ] (f : κ → β) (l : List κ) (k : κ) :
    getK (l.map (fun a => (a, f a))) k = if k ∈ l then some (f k) else none := by
  induction l with
  | nil => simp [getK]
  | cons a t ih =>
    by_cases hak : a = k
    · simp [getK, hak]
    · simp [getK, hak, ih, Ne.symm hak]

theorem keys_updK {κ α : Type} [DecidableEq κ] (l : List (κ × α)) (k : κ) (f : α → α)
    (d : α) :
    (updK l k f d).map Prod.fst = l.map Prod.fst ∨
      (updK l k f d).map Prod.fst = l.map Prod.fst ++ [k] := by
  induction l with
  | nil => right; simp [updK]
  | cons p t ih =>
    by_cases hpk : p.1 = k
    · left; simp [updK, hpk]
    · rcases ih with h | h
      · left; simp [updK, hpk, h]
      · right; simp [updK, hpk, h]

theorem nodupKeys_updK {κ α : Type} [DecidableEq κ] {l : List (κ × α)} (k : κ) (f : α → α)
    (d : α) (h : (l.map Prod.fst).Nodup) : ((updK l k f d).map Prod.fst).Nodup := by
  induction l with
  | nil => simp [updK]
  | cons p t ih =>
    rw [List.map_cons, List.nodup_cons] at h
    by_cases hpk : p.1 = k
    · simp only [updK, if_pos hpk, List.map_cons, List.nodup_cons]
      exact ⟨h.1, h.2⟩
    · have hmem : p.1 ∉ (updK t k f d).map Prod.fst := by
        rcases keys_updK t k f d with he | he
        · rw [he]; exact h.1
        · rw [he]
          simp only [List.mem_append, List.mem_singleton]
          rintro (hc | hc)
          · exact h.1 hc
          · exact hpk hc
      simp only [updK, if_neg hpk, List.map_cons, List.nodup_cons]
      exact ⟨hmem, ih h.2⟩

/-! ## Lemmas: the global accumulators -/

theorem foldlDistortion_outcomes (ds : List Distortion) (acc : GAcc) :
    (ds.foldl gaccDistortion acc).outcomes = acc.outcomes := by
  induction ds generalizing acc with
  | nil => rfl
  | cons d ds ih => rw [List.foldl_cons, ih]; rfl

theorem foldlDistortion_cooc (ds : List Distortion) (acc : GAcc) :
    (ds.foldl gaccDistortion acc).cooc = acc.cooc := by
  induction ds generalizing acc with
  | nil => rfl
  | cons d ds ih => rw [List.foldl_cons, ih]; rfl

theorem gaccPairsInner_outcomes (acc : GAcc) (d1 : String) (rest : List String) :
    (gaccPairsInner acc d1 rest).outcomes = acc.outcomes := by
  induction rest generalizing acc with
  | nil => rfl
  | cons r rs ih => rw [gaccPairsInner, List.foldl_cons]; exact ih _

theorem gaccPairs_outcomes (l : List String) (acc : GAcc) :
    (gaccPairs acc l).outcomes = acc.outcomes := by
  induction l generalizing acc with
  | nil => rfl
  | cons d1 rest ih => rw [gaccPairs, ih, gaccPairsInner_outcomes]

theorem gaccInterv_outcomes (imp : ℚ) (types : List String) (acc : GAcc) (iv : String) :
    (gaccInterv imp types acc iv).outcomes =
      if 0 < imp then updK acc.outcomes iv (fun p => (p.1 + imp, p.2 + 1)) (0, 0)
      else acc.outcomes := by
  have hl : ∀ (ts : List String) (a : GAcc),
      (ts.foldl (fun a dt => { a with links := updK a.links (iv, dt) (fun n => n + 1) 0 })
        a).outcomes = a.outcomes := by
    intro ts
    induction ts with
    | nil => intro a; rfl
    | cons t ts ih => intro a; rw [List.foldl_cons]; exact ih _
  unfold gaccInterv
  by_cases h : 0 < imp <;> simp [h, hl]

theorem gaccInterv_cooc (imp : ℚ) (types : List String) (acc : GAcc) (iv : String) :
    (gaccInterv imp types acc iv).cooc = acc.cooc := by
  have hl : ∀ (ts : List String) (a : GAcc),
      (ts.foldl (fun a dt => { a with links := updK a.links (iv, dt) (fun n => n + 1) 0 })
        a).cooc = a.cooc := by
    intro ts
    induction ts with
    | nil => intro a; rfl
    | cons t ts ih => intro a; rw [List.foldl_cons]; exact ih _
  unfold gaccInterv
  by_cases h : 0 < imp <;> simp [h, hl]

theorem foldlInterv_cooc (imp : ℚ) (types : List String) (ivs : List String) (acc : GAcc) :
    (ivs.foldl (gaccInterv imp types) acc).cooc = acc.cooc := by
  induction ivs generalizing acc with
  | nil => rfl
  | cons iv ivs ih => rw [List.foldl_cons, ih, gaccInterv_cooc]

theorem foldlInterv_outcomes (imp : ℚ) (types : List String) (ivs : List String) (acc : GAcc)
    (x : String) :
    getKD ((ivs.foldl (gaccInterv imp types) acc).outcomes) x (0, 0) =
      if 0 < imp then
        ((getKD acc.outcomes x (0, 0)).1 + imp * (ivs.count x : ℚ),
          (getKD acc.outcomes x (0, 0)).2 + ivs.count x)
      else getKD acc.outcomes x (0, 0) := by
  induction ivs generalizing acc with
  | nil =>
    by_cases h : 0 < imp <;> simp [h]
  | cons iv ivs ih =>
    rw [List.foldl_cons, ih]
    by_cases h : 0 < imp
    · simp only [if_pos h, gaccInterv_outcomes, getKD_updK]
      by_cases hx : x = iv
      · subst hx
        simp only [if_pos h, List.count_cons, beq_self_eq_true, if_true, Prod.mk.injEq]
        constructor
        · push_cast
          ring
        · omega
      · simp [if_pos h, hx, List.count_cons, Ne.symm hx]
    · simp [if_neg h, gaccInterv_outcomes]

theorem gaccEntry_outcomes (imp : ℚ) (acc : GAcc) (e : Entry) (x : String) :
    getKD ((gaccEntry imp acc e).outcomes) x (0, 0) =
      if 0 < imp then
        ((getKD acc.outcomes x (0, 0)).1 + imp * (e.interventionsUsed.count x : ℚ),
          (getKD acc.outcomes x (0, 0)).2 + e.interventionsUsed.count x)
      else getKD acc.outcomes x (0, 0) := by
  unfold gaccEntry
  rw [foldlInterv_outcomes, gaccPairs_outcomes, foldlDistortion_outcomes]

theorem entriesFold_outcomes (imp : ℚ) (es : List Entry) (acc : GAcc) (x : String) :
    getKD ((es.foldl (gaccEntry imp) acc).outcomes) x (0, 0) =
      if 0 < imp then
        ((getKD acc.outcomes x (0, 0)).1 +
            imp * ((es.map (fun e => e.interventionsUsed.count x)).sum : ℚ),
          (getKD acc.outcomes x (0, 0)).2 + (es.map (fun e => e.interventionsUsed.count x)).sum)
      else getKD acc.outcomes x (0, 0) := by
  induction es generalizing acc with
  | nil => by_cases h : 0 < imp <;> simp [h]
  | cons e es ih =>
    rw [List.foldl_cons, ih, gaccEntry_outcomes]
    by_cases h : 0 < imp
    · simp only [if_pos h, List.map_cons, List.sum_cons, Prod.mk.injEq]
      constructor
      · ring
      · ring
    · simp [if_neg h]

theorem gaccJourney_outcomes (acc : GAcc) (j : Journey) (x : String) :
    getKD ((gaccJourney acc j).outcomes) x (0, 0) =
      if 0 < j.improvement then
        ((getKD acc.outcomes x (0, 0)).1 + j.improvement * (journeyUses j x : ℚ),
          (getKD acc.outcomes x (0, 0)).2 + journeyUses j x)
      else getKD acc.outcomes x (0, 0) := by
  unfold gaccJourney journeyUses
  rw [entriesFold_outcomes]
  have hc : (((j.entries.map (fun e => e.interventionsUsed.count x)).sum : ℕ) : ℚ) =
      (j.entries.map (fun e => ((e.interventionsUsed.count x : ℕ) : ℚ))).sum := by
    rw [Nat.cast_list_sum, List.map_map]
    rfl
  rw [hc]

theorem journeysFold_outcomes (js : List Journey) (acc : GAcc) (x : String) :
    getKD ((js.foldl gaccJourney acc).outcomes) x (0, 0) =
      ((getKD acc.outcomes x (0, 0)).1 + qualSum js x,
        (getKD acc.outcomes x (0, 0)).2 + qualCount js x) := by
  induction js generalizing acc with
  | nil => simp [qualSum, qualCount]
  | cons j js ih =>
    rw [List.foldl_cons, ih, gaccJourney_outcomes]
    by_cases h : 0 < j.improvement
    · simp only [if_pos h, qualSum, qualCount, List.map_cons, List.sum_cons, Prod.mk.injEq]
      constructor <;> ring
    · simp only [if_neg h, qualSum, qualCount, List.map_cons, List.sum_cons, Prod.mk.injEq]
      constructor <;> ring

theorem gaccAll_outcomes (js : List Journey) (x : String) :
    getKD (gaccAll js).outcomes x (0, 0) = (qualSum js x, qualCount js x) := by
  unfold gaccAll
  rw [journeysFold_outcomes]
  simp [getKD, getK]

theorem gaccPairsInner_cooc (acc : GAcc) (d1 : String) (rest : List String)
    (k : String × String) :
    getKD ((gaccPairsInner acc d1 rest).cooc) k 0 =
      getKD acc.cooc k 0 + rest.countP (fun y => decide (sortPair d1 y = k)) := by
  induction rest generalizing acc with
  | nil => simp [gaccPairsInner]
  | cons r rs ih =>
    rw [gaccPairsInner, List.foldl_cons]
    rw [show (rs.foldl (fun a d2 =>
        { a with cooc := updK a.cooc (sortPair d1 d2) (fun n => n + 1) 0 })
        { acc with cooc := updK acc.cooc (sortPair d1 r) (fun n => n + 1) 0 }) =
      gaccPairsInner { acc with cooc := updK acc.cooc (sortPair d1 r) (fun n => n + 1) 0 } d1 rs
      from rfl]
    rw [ih]
    show getKD (updK acc.cooc (sortPair d1 r) (fun n => n + 1) 0) k 0 + _ = _
    rw [getKD_updK, List.countP_cons]
    by_cases hk : k = sortPair d1 r
    · have hd : decide (sortPair d1 r = k) = true := by simp [hk]
      rw [if_pos hk, hd, hk]
      simp only [reduceIte]
      omega
    · have hd : decide (sortPair d1 r = k) = false := by
        simp only [decide_eq_false_iff_not]
        exact fun hh => hk hh.symm
      rw [if_neg hk, hd]
      simp

theorem gaccPairs_cooc (l : List String) (acc : GAcc) (k : String × String) :
    getKD ((gaccPairs acc l).cooc) k 0 = getKD acc.cooc k 0 + sortedPairsIn k l := by
  induction l generalizing acc with
  | nil => simp [gaccPairs, sortedPairsIn]
  | cons d1 rest ih =>
    rw [gaccPairs, ih, gaccPairsInner_cooc, sortedPairsIn]
    ring

theorem gaccEntry_cooc (imp : ℚ) (acc : GAcc) (e : Entry) (k : String × String) :
    getKD ((gaccEntry imp acc e).cooc) k 0 =
      getKD acc.cooc k 0 + sortedPairsIn k (entryDistTypes e) := by
  unfold gaccEntry
  rw [foldlInterv_cooc, gaccPairs_cooc, foldlDistortion_cooc]

theorem entriesFold_cooc (imp : ℚ) (es : List Entry) (acc : GAcc) (k : String × String) :
    getKD ((es.foldl (gaccEntry imp) acc).cooc) k 0 =
      getKD acc.cooc k 0 + (es.map (fun e => sortedPairsIn k (entryDistTypes e))).sum := by
  induction es generalizing acc with
  | nil => simp
  | cons e es ih =>
    rw [List.foldl_cons, ih, gaccEntry_cooc]
    simp only [List.map_cons, List.sum_cons]
    ring

theorem journeysFold_cooc (js : List Journey) (acc : GAcc) (k : String × String) :
    getKD ((js.foldl gaccJourney acc).cooc) k 0 = getKD acc.cooc k 0 + globalPairCount js k := by
  induction js generalizing acc with
  | nil => simp [globalPairCount]
  | cons j js ih =>
    rw [List.foldl_cons, ih]
    unfold gaccJourney
    rw [entriesFold_cooc]
    simp only [globalPairCount, List.map_cons, List.sum_cons]
    ring

theorem gaccAll_cooc (js : List Journey) (k : String × String) :
    getKD (gaccAll js).cooc k 0 = globalPairCount js k := by
  unfold gaccAll
  rw [journeysFold_cooc]
  simp [getKD, getK]

theorem gaccPairsInner_cooc_nodup (acc : GAcc) (d1 : String) (rest : List String)
    (h : (acc.cooc.map Prod.fst).Nodup) :
    ((gaccPairsInner acc d1 rest).cooc.map Prod.fst).Nodup := by
  induction rest generalizing acc with
  | nil => exact h
  | cons r rs ih =>
    rw [gaccPairsInner, List.foldl_cons]
    exact ih _ (nodupKeys_updK _ _ _ h)

theorem gaccPairs_cooc_nodup (l : List String) (acc : GAcc)
    (h : (acc.cooc.map Prod.fst).Nodup) : ((gaccPairs acc l).cooc.map Prod.fst).Nodup := by
  induction l generalizing acc with
  | nil => exact h
  | cons d1 rest ih =>
    rw [gaccPairs]
    exact ih _ (gaccPairsInner_cooc_nodup _ _ _ h)

theorem gaccEntry_cooc_nodup (imp : ℚ) (acc : GAcc) (e : Entry)
    (h : (acc.cooc.map Prod.fst).Nodup) : ((gaccEntry imp acc e).cooc.map Prod.fst).Nodup := by
  unfold gaccEntry
  rw [foldlInterv_cooc]
  apply gaccPairs_cooc_nodup
  rw [foldlDistortion_cooc]
  exact h

theorem entriesFold_cooc_nodup (imp : ℚ) (es : List Entry) (acc : GAcc)
    (h : (acc.cooc.map Prod.fst).Nodup) :
    ((es.foldl (gaccEntry imp) acc).cooc.map Prod.fst).Nodup := by
  induction es generalizing acc with
  | nil => exact h
  | cons e es ih =>
    rw [List.foldl_cons]
    exact ih _ (gaccEntry_cooc_nodup _ _ _ h)

theorem gaccAll_cooc_nodup (js : List Journey) :
    ((gaccAll js).cooc.map Prod.fst).Nodup := by
  unfold gaccAll
  have hstep : ∀ (js' : List Journey) (acc : GAcc), (acc.cooc.map Prod.fst).Nodup →
      ((js'.foldl gaccJourney acc).cooc.map Prod.fst).Nodup := by
    intro js'
    induction js' with
    | nil => intro acc h; exact h
    | cons j js' ih =>
      intro acc h
      rw [List.foldl_cons]
      exact ih _ (entriesFold_cooc_nodup _ _ _ h)
  exact hstep js ⟨[], [], [], [], []⟩ (by simp)

/-! ## Lemmas: the global graph -/

theorem find?_coEdges (cooc : List ((String × String) × ℕ)) (thr : ℚ) (a b : String) (c : ℕ)
    (hnd : (cooc.map Prod.fst).Nodup) (hget : getK cooc (a, b) = some c)
    (hc : thr ≤ (c : ℚ)) :
    (cooc.filterMap
        (fun p => if thr ≤ (p.2 : ℚ) then some (p.1, GEdge.mk p.2 "co_occurs" none)
          else none)).find?
        (fun e => decide (e.1 = (a, b) ∧ e.2.etype = "co_occurs")) =
      some ((a, b), GEdge.mk c "co_occurs" none) := by
  induction cooc with
  | nil => simp [getK] at hget
  | cons p t ih =>
    rw [List.map_cons, List.nodup_cons] at hnd
    by_cases hpk : p.1 = (a, b)
    · rw [getK, if_pos hpk] at hget
      have hpc : p.2 = c := Option.some.inj hget
      rw [List.filterMap_cons, if_pos (by rw [hpc]; exact hc)]
      rw [List.find?_cons]
      have : decide ((p.1, GEdge.mk p.2 "co_occurs" none).1 = (a, b) ∧
          (p.1, GEdge.mk p.2 "co_occurs" none).2.etype = "co_occurs") = true := by
        simp [hpk]
      rw [this]
      simp [hpk, hpc]
    · rw [getK, if_neg hpk] at hget
      rw [List.filterMap_cons]
      by_cases hthr : thr ≤ (p.2 : ℚ)
      · rw [if_pos hthr, List.find?_cons]
        have : decide ((p.1, GEdge.mk p.2 "co_occurs" none).1 = (a, b) ∧
            (p.1, GEdge.mk p.2 "co_occurs" none).2.etype = "co_occurs") = false := by
          simp [hpk]
        rw [this]
        exact ih hnd.2 hget
      · rw [if_neg hthr]
        exact ih hnd.2 hget

theorem gCoEdgeWeight_eq (js : List Journey) (a b : String) (c : ℕ)
    (hget : getK (gaccAll js).cooc (a, b) = some c)
    (hthr : (js.length : ℚ) * (1 / 10) ≤ (c : ℚ)) :
    gCoEdgeWeight (buildGlobalIntvGraph js) a b = some c := by
  unfold gCoEdgeWeight buildGlobalIntvGraph
  rw [List.find?_append]
  rw [find?_coEdges (gaccAll js).cooc ((js.length : ℚ) * (1 / 10)) a b c
    (gaccAll_cooc_nodup js) hget hthr]
  rfl

theorem outcomeAvg_gaccAll (js : List Journey) (x : String) :
    outcomeAvg (gaccAll js) x =
      if 0 < qualCount js x then qualSum js x / (qualCount js x : ℚ) else 0 := by
  unfold outcomeAvg
  rw [gaccAll_outcomes]

theorem avgImprovementOf_buildGlobal (js : List Journey) (x : String)
    (hx : x ∈ allInterventions js) (hnd : x ∉ allDistortions js) :
    avgImprovementOf (buildGlobalIntvGraph js) x = some (outcomeAvg (gaccAll js) x) := by
  unfold avgImprovementOf buildGlobalIntvGraph
  have hd : getK ((allDistortions js).map
      (fun d => (d, GNodeData.dist (getKD (gaccAll js).dcounts d 0)
        (getKD (gaccAll js).dconf d 0)))) x = none := by
    rw [getK_map_pair]
    simp [hnd]
  rw [getK_append_right _ hd, getK_map_pair]
  simp [hx]

/-! ## Claim theorems: C1, C2, C9 -/

/-- C1, corrected (counterexample): at the two-journey cohort `c1js`,
the `avg_improvement` attribute of intervention `X` is not the arithmetic
mean of the improvement values of the distinct qualifying journeys: the
code averages once per entry-use (5/6), not once per journey (3/4). -/
theorem c1_counterexample :
    avgImprovementOf (buildGlobalIntvGraph c1js) "X" ≠
      some (claimDistinctMeanImprovement c1js "X") := by
  have h1 : avgImprovementOf (buildGlobalIntvGraph c1js) "X" = some (5 / 6) := by
    norm_num [avgImprovementOf, buildGlobalIntvGraph, gaccAll, gaccJourney, gaccEntry,
      gaccDistortion, gaccPairs, gaccPairsInner, gaccInterv, c1js, c1j1, c1j2, mkEntry,
      entryDistTypes, allDistortions, allInterventions, getK, getKD, setK, updK, sortPair,
      outcomeAvg]
    simp only [show (("d1" : String) = "X") = False from by simp, if_false]
  have h2 : claimDistinctMeanImprovement c1js "X" = 3 / 4 := by
    norm_num [claimDistinctMeanImprovement, c1js, c1j1, c1j2, mkEntry, journeyUsed]
  rw [h1, h2]
  norm_num

/-- C1, amended: for every cohort and every intervention `x` used in some
entry (and, as everywhere in the code, named disjointly from the
distortion vocabulary), the `avg_improvement` attribute of `x`'s node in
the global graph is the use-weighted mean: the sum, over journeys with
improvement > 0, of improvement times the journey's number of uses of
`x`, divided by the total number of such uses (0 if there is none); a
qualifying journey contributes once per entry-use, not once. -/
theorem c1_avg_improvement_weighted (js : List Journey) (x : String)
    (hx : x ∈ allInterventions js) (hnd : x ∉ allDistortions js) :
    avgImprovementOf (buildGlobalIntvGraph js) x =
      some (if 0 < qualCount js x then qualSum js x / (qualCount js x : ℚ) else 0) := by
  rw [avgImprovementOf_buildGlobal js x hx hnd, outcomeAvg_gaccAll]

/-- Witness for C1's amended theorem at the concrete cohort `c1js`. -/
theorem c1_witness :
    avgImprovementOf (buildGlobalIntvGraph c1js) "X" =
      some (if 0 < qualCount c1js "X" then qualSum c1js "X" / (qualCount c1js "X" : ℚ)
        else 0) :=
  c1_avg_improvement_weighted c1js "X" (by decide) (by decide)

/-- C2, corrected (counterexample): in the cohort `c2js` of exactly 10
journeys, the pair `(A, B)` co-occurs in exactly 1 journey and the
global graph nevertheless has the `co_occurs` edge, because the
threshold comparison is `count >= len * 0.1` and `1 >= 1.0`. -/
theorem c2_counterexample :
    c2js.length = 10 ∧ pairJourneyCount c2js ("A", "B") = 1 ∧
      gCoEdgeWeight (buildGlobalIntvGraph c2js) "A" "B" = some 1 := by
  refine ⟨by decide, by decide, ?_⟩
  have hl : c2js.length = 10 := by decide
  have hthr : ((c2js.length : ℕ) : ℚ) * (1 / 10) ≤ ((1 : ℕ) : ℚ) := by
    rw [hl]
    norm_num
  exact gCoEdgeWeight_eq c2js "A" "B" 1 (by decide) hthr

/-- C2, amended: for a cohort of exactly 10 journeys, a distortion pair
co-occurring in at least one entry (so also one co-occurring in exactly
1 journey, and one co-occurring in 2 of the 10) yields a `co_occurs`
edge carrying the total entry-level pair count, since the threshold is
`10 * 0.1 = 1` and the comparison is `>=`. -/
theorem c2_cooccur_threshold_ten (js : List Journey) (a b : String)
    (hlen : js.length = 10) (hdisj : a ∉ allInterventions js)
    (hcnt : 1 ≤ globalPairCount js (a, b)) :
    gCoEdgeWeight (buildGlobalIntvGraph js) a b = some (globalPairCount js (a, b)) := by
  have hval := gaccAll_cooc js (a, b)
  have hget : getK (gaccAll js).cooc (a, b) = some (globalPairCount js (a, b)) := by
    cases h : getK (gaccAll js).cooc (a, b) with
    | none =>
      rw [getKD, h] at hval
      simp at hval
      omega
    | some c =>
      rw [getKD, h] at hval
      simp at hval
      rw [hval]
  apply gCoEdgeWeight_eq js a b _ hget
  rw [hlen]
  have h1 : ((10 : ℕ) : ℚ) * (1 / 10) = 1 := by norm_num
  rw [h1]
  exact_mod_cast hcnt

/-- Witness for C2's amended theorem at the concrete cohort `c2js`. -/
theorem c2_witness :
    gCoEdgeWeight (buildGlobalIntvGraph c2js) "A" "B" =
      some (globalPairCount c2js ("A", "B")) :=
  c2_cooccur_threshold_ten c2js "A" "B" (by decide) (by decide) (by decide)

/-! ## Lemmas: the personal graph builder -/

theorem mem_setK {κ α : Type} [DecidableEq κ] {l : List (κ × α)} {k : κ} {v : α}
    {kv : κ × α} (h : kv ∈ setK l k v) : kv ∈ l ∨ kv = (k, v) := by
  induction l with
  | nil => simp [setK] at h; simp [h]
  | cons p t ih =>
    by_cases hpk : p.1 = k
    · rw [setK, if_pos hpk] at h
      rcases List.mem_cons.1 h with h | h
      · right; rw [h, hpk]
      · left; exact List.mem_cons_of_mem _ h
    · rw [setK, if_neg hpk] at h
      rcases List.mem_cons.1 h with h | h
      · left; rw [h]; exact List.mem_cons_self _ _
      · rcases ih h with h | h
        · left; exact List.mem_cons_of_mem _ h
        · right; exact h

theorem keys_setK {κ α : Type} [DecidableEq κ] (l : List (κ × α)) (k : κ) (v : α) :
    (setK l k v).map Prod.fst = l.map Prod.fst ∨
      (setK l k v).map Prod.fst = l.map Prod.fst ++ [k] := by
  induction l with
  | nil => right; simp [setK]
  | cons p t ih =>
    by_cases hpk : p.1 = k
    · left; simp [setK, hpk]
    · rcases ih with h | h
      · left; simp [setK, hpk, h]
      · right; simp [setK, hpk, h]

theorem nodupKeys_setK {κ α : Type} [DecidableEq κ] {l : List (κ × α)} (k : κ) (v : α)
    (h : (l.map Prod.fst).Nodup) : ((setK l k v).map Prod.fst).Nodup := by
  induction l with
  | nil => simp [setK]
  | cons p t ih =>
    rw [List.map_cons, List.nodup_cons] at h
    by_cases hpk : p.1 = k
    · simp only [setK, if_pos hpk, List.map_cons, List.nodup_cons]
      exact ⟨hpk ▸ h.1, h.2⟩
    · have hmem : p.1 ∉ (setK t k v).map Prod.fst := by
        rcases keys_setK t k v with he | he
        · rw [he]; exact h.1
        · rw [he]
          simp only [List.mem_append, List.mem_singleton]
          rintro (hc | hc)
          · exact h.1 hc
          · exact hpk hc
      simp only [setK, if_neg hpk, List.map_cons, List.nodup_cons]
      exact ⟨hmem, ih h.2⟩

theorem nodupKeys_append_fresh {κ α : Type} [DecidableEq κ] {l : List (κ × α)} {k : κ}
    (v : α) (h : (l.map Prod.fst).Nodup) (hk : getK l k = none) :
    ((l ++ [(k, v)]).map Prod.fst).Nodup := by
  rw [List.map_append]
  rw [List.nodup_append]
  refine ⟨h, by simp, ?_⟩
  intro x hx
  simp only [List.map_cons, List.map_nil, List.mem_singleton]
  intro hxk
  exact (getK_none_iff l k).1 hk (hxk ▸ hx)

theorem paccDistortion_pairs (st : PAcc) (d : Distortion) :
    (paccDistortion st d).pairs = st.pairs := by
  unfold paccDistortion
  split <;> rfl

theorem paccDistortion_edges (st : PAcc) (d : Distortion) :
    (paccDistortion st d).edges = st.edges := by
  unfold paccDistortion
  split <;> rfl

theorem foldlPDistortion_pairs (ds : List Distortion) (st : PAcc) :
    (ds.foldl paccDistortion st).pairs = st.pairs := by
  induction ds generalizing st with
  | nil => rfl
  | cons d ds ih => rw [List.foldl_cons, ih, paccDistortion_pairs]

theorem foldlPDistortion_edges (ds : List Distortion) (st : PAcc) :
    (ds.foldl paccDistortion st).edges = st.edges := by
  induction ds generalizing st with
  | nil => rfl
  | cons d ds ih => rw [List.foldl_cons, ih, paccDistortion_edges]

theorem paccPairsInner_edges (st : PAcc) (d1 : String) (rest : List String) :
    (paccPairsInner st d1 rest).edges = st.edges := by
  induction rest generalizing st with
  | nil => rfl
  | cons r rs ih => rw [paccPairsInner, List.foldl_cons]; exact ih _

theorem paccPairs_edges (l : List String) (st : PAcc) :
    (paccPairs st l).edges = st.edges := by
  induction l generalizing st with
  | nil => rfl
  | cons d1 rest ih => rw [paccPairs, ih, paccPairsInner_edges]

theorem paccIntervNode_pairs (iv : String) (st : PAcc) :
    (paccIntervNode iv st).pairs = st.pairs := by
  unfold paccIntervNode
  split <;> rfl

theorem paccIntervNode_edges (iv : String) (st : PAcc) :
    (paccIntervNode iv st).edges = st.edges := by
  unfold paccIntervNode
  split <;> rfl

theorem paccIntervEdges_pairs (types : List String) (iv : String) (st : PAcc) :
    (paccIntervEdges types iv st).pairs = st.pairs := by
  induction types generalizing st with
  | nil => rfl
  | cons t ts ih =>
    rw [paccIntervEdges, List.foldl_cons]
    rw [show ∀ (st' : PAcc), List.foldl _ st' ts = paccIntervEdges ts iv st' from fun _ => rfl]
    rw [ih]
    split <;> rfl

theorem paccIntervDelta_pairs (delta : Option ℚ) (iv : String) (st : PAcc) :
    (paccIntervDelta delta iv st).pairs = st.pairs := by
  unfold paccIntervDelta
  split <;> rfl

theorem paccIntervDelta_edges (delta : Option ℚ) (iv : String) (st : PAcc) :
    (paccIntervDelta delta iv st).edges = st.edges := by
  unfold paccIntervDelta
  split <;> rfl

theorem paccInterv_pairs (types : List String) (delta : Option ℚ) (st : PAcc) (iv : String) :
    (paccInterv types delta st iv).pairs = st.pairs := by
  unfold paccInterv paccIntervUses
  rw [show ∀ (st' : PAcc), ({ st' with
      eff := updK st'.eff iv (fun p => (p.1 + 1, p.2)) (0, []) } : PAcc).pairs = st'.pairs
    from fun _ => rfl]
  rw [paccIntervDelta_pairs, paccIntervEdges_pairs, paccIntervNode_pairs]

theorem foldlPInterv_pairs (types : List String) (delta : Option ℚ) (ivs : List String)
    (st : PAcc) : (ivs.foldl (paccInterv types delta) st).pairs = st.pairs := by
  induction ivs generalizing st with
  | nil => rfl
  | cons iv ivs ih => rw [List.foldl_cons, ih, paccInterv_pairs]

theorem paccPairsInner_pairs (st : PAcc) (d1 : String) (rest : List String) (a b : String) :
    getKD ((paccPairsInner st d1 rest).pairs) (a, b) 0 =
      getKD st.pairs (a, b) 0 + (if d1 = a then rest.count b else 0) := by
  induction rest generalizing st with
  | nil => simp [paccPairsInner]
  | cons r rs ih =>
    rw [paccPairsInner, List.foldl_cons]
    rw [show (rs.foldl (fun a d2 =>
        { a with pairs := updK a.pairs (d1, d2) (fun n => n + 1) 0 })
        { st with pairs := updK st.pairs (d1, r) (fun n => n + 1) 0 }) =
      paccPairsInner { st with pairs := updK st.pairs (d1, r) (fun n => n + 1) 0 } d1 rs
      from rfl]
    rw [ih]
    show getKD (updK st.pairs (d1, r) (fun n => n + 1) 0) (a, b) 0 + _ = _
    rw [getKD_updK]
    by_cases hd : d1 = a
    · by_cases hr : r = b
      · have h1 : (a, b) = (d1, r) := by rw [hd, hr]
        have h2 : (r == b) = true := by rw [hr]; simp
        simp only [if_pos h1, if_pos hd, List.count_cons, h2, h1, reduceIte]
        omega
      · have h1 : ¬(a, b) = (d1, r) := by
          intro hc
          exact hr (Prod.ext_iff.1 hc).2.symm
        have h2 : (r == b) = false := by
          simp only [beq_eq_false_iff_ne, ne_eq]
          exact hr
        simp only [if_neg h1, if_pos hd, List.count_cons, h2, Bool.false_eq_true, if_false]
        omega
    · have h1 : ¬(a, b) = (d1, r) := by
        intro hc
        exact hd (Prod.ext_iff.1 hc).1.symm
      simp only [if_neg h1, if_neg hd]

theorem paccPairs_pairs (l : List String) (st : PAcc) (a b : String) :
    getKD ((paccPairs st l).pairs) (a, b) 0 =
      getKD st.pairs (a, b) 0 + orderedPairsIn a b l := by
  induction l generalizing st with
  | nil => simp [paccPairs, orderedPairsIn]
  | cons d1 rest ih =>
    rw [paccPairs, ih, paccPairsInner_pairs, orderedPairsIn]
    omega

theorem paccEntry_pairs (st : PAcc) (e : Entry) (next? : Option Entry) (a b : String) :
    getKD ((paccEntry st e next?).pairs) (a, b) 0 =
      getKD st.pairs (a, b) 0 + orderedPairsIn a b (entryDistTypes e) := by
  unfold paccEntry
  rw [foldlPInterv_pairs, paccPairs_pairs, foldlPDistortion_pairs]

theorem paccEntries_pairs (es : List Entry) (st : PAcc) (a b : String) :
    getKD ((paccEntries st es).pairs) (a, b) 0 =
      getKD st.pairs (a, b) 0 +
        (es.map (fun e => orderedPairsIn a b (entryDistTypes e))).sum := by
  induction es generalizing st with
  | nil => simp [paccEntries]
  | cons e es ih =>
    rw [paccEntries, ih, paccEntry_pairs, List.map_cons, List.sum_cons]
    omega

theorem paccPairsInner_pairs_nodup (rest : List String) (st : PAcc) (d1 : String)
    (h : (st.pairs.map Prod.fst).Nodup) :
    ((paccPairsInner st d1 rest).pairs.map Prod.fst).Nodup := by
  induction rest generalizing st with
  | nil => exact h
  | cons r rs ih =>
    rw [paccPairsInner, List.foldl_cons]
    exact ih _ (nodupKeys_updK _ _ _ h)

theorem paccPairs_pairs_nodup (l : List String) (st : PAcc)
    (h : (st.pairs.map Prod.fst).Nodup) : ((paccPairs st l).pairs.map Prod.fst).Nodup := by
  induction l generalizing st with
  | nil => exact h
  | cons d1 rest ih =>
    rw [paccPairs]
    exact ih _ (paccPairsInner_pairs_nodup _ _ _ h)

theorem paccEntry_pairs_nodup (st : PAcc) (e : Entry) (next? : Option Entry)
    (h : (st.pairs.map Prod.fst).Nodup) :
    ((paccEntry st e next?).pairs.map Prod.fst).Nodup := by
  unfold paccEntry
  rw [foldlPInterv_pairs]
  apply paccPairs_pairs_nodup
  rw [foldlPDistortion_pairs]
  exact h

theorem paccEntries_pairs_nodup (es : List Entry) (st : PAcc)
    (h : (st.pairs.map Prod.fst).Nodup) :
    ((paccEntries st es).pairs.map Prod.fst).Nodup := by
  induction es generalizing st with
  | nil => exact h
  | cons e es ih =>
    rw [paccEntries]
    exact ih _ (paccEntry_pairs_nodup _ _ _ h)

theorem paccIntervEdges_inv (types : List String) (iv : String) (st : PAcc)
    (h1 : ∀ kv ∈ st.edges, kv.2.etype = "addresses")
    (h2 : (st.edges.map Prod.fst).Nodup) :
    (∀ kv ∈ (paccIntervEdges types iv st).edges, kv.2.etype = "addresses") ∧
      ((paccIntervEdges types iv st).edges.map Prod.fst).Nodup := by
  induction types generalizing st with
  | nil => exact ⟨h1, h2⟩
  | cons t ts ih =>
    rw [paccIntervEdges, List.foldl_cons]
    rw [show ∀ (st' : PAcc), List.foldl _ st' ts = paccIntervEdges ts iv st' from fun _ => rfl]
    cases hE : getK st.edges (iv, t) with
    | some e =>
      simp only [hE]
      apply ih
      · intro kv hkv
        rcases mem_setK hkv with hm | hm
        · exact h1 _ hm
        · have hae := h1 _ (getK_mem hE)
          rw [hm]
          exact hae
      · exact nodupKeys_setK _ _ h2
    | none =>
      simp only [hE]
      apply ih
      · intro kv hkv
        rcases List.mem_append.1 hkv with hm | hm
        · exact h1 _ hm
        · rw [List.mem_singleton.1 hm]
      · exact nodupKeys_append_fresh _ h2 hE

theorem paccInterv_edges_inv (types : List String) (delta : Option ℚ) (st : PAcc)
    (iv : String) (h1 : ∀ kv ∈ st.edges, kv.2.etype = "addresses")
    (h2 : (st.edges.map Prod.fst).Nodup) :
    (∀ kv ∈ (paccInterv types delta st iv).edges, kv.2.etype = "addresses") ∧
      ((paccInterv types delta st iv).edges.map Prod.fst).Nodup := by
  unfold paccInterv paccIntervUses
  rw [show ∀ (st' : PAcc), ({ st' with
      eff := updK st'.eff iv (fun p => (p.1 + 1, p.2)) (0, []) } : PAcc).edges = st'.edges
    from fun _ => rfl]
  rw [paccIntervDelta_edges]
  exact paccIntervEdges_inv types iv _ (by rw [paccIntervNode_edges]; exact h1)
    (by rw [paccIntervNode_edges]; exact h2)

theorem foldlPInterv_edges_inv (types : List String) (delta : Option ℚ) (ivs : List String)
    (st : PAcc) (h1 : ∀ kv ∈ st.edges, kv.2.etype = "addresses")
    (h2 : (st.edges.map Prod.fst).Nodup) :
    (∀ kv ∈ (ivs.foldl (paccInterv types delta) st).edges, kv.2.etype = "addresses") ∧
      ((ivs.foldl (paccInterv types delta) st).edges.map Prod.fst).Nodup := by
  induction ivs generalizing st with
  | nil => exact ⟨h1, h2⟩
  | cons iv ivs ih =>
    rw [List.foldl_cons]
    have h := paccInterv_edges_inv types delta st iv h1 h2
    exact ih _ h.1 h.2

theorem paccEntry_edges_inv (st : PAcc) (e : Entry) (next? : Option Entry)
    (h1 : ∀ kv ∈ st.edges, kv.2.etype = "addresses")
    (h2 : (st.edges.map Prod.fst).Nodup) :
    (∀ kv ∈ (paccEntry st e next?).edges, kv.2.etype = "addresses") ∧
      ((paccEntry st e next?).edges.map Prod.fst).Nodup := by
  unfold paccEntry
  apply foldlPInterv_edges_inv
  · rw [paccPairs_edges, foldlPDistortion_edges]
    exact h1
  · rw [paccPairs_edges, foldlPDistortion_edges]
    exact h2

theorem paccEntries_edges_inv (es : List Entry) (st : PAcc)
    (h1 : ∀ kv ∈ st.edges, kv.2.etype = "addresses")
    (h2 : (st.edges.map Prod.fst).Nodup) :
    (∀ kv ∈ (paccEntries st es).edges, kv.2.etype = "addresses") ∧
      ((paccEntries st es).edges.map Prod.fst).Nodup := by
  induction es generalizing st with
  | nil => exact ⟨h1, h2⟩
  | cons e es ih =>
    rw [paccEntries]
    have h := paccEntry_edges_inv st e es.head? h1 h2
    exact ih _ h.1 h.2

theorem nodupKeys_materializeCo (pairs : List ((String × String) × ℕ))
    (edges : List ((String × String) × PEdge))
    (h : (edges.map Prod.fst).Nodup) :
    ((materializeCo edges pairs).map Prod.fst).Nodup := by
  induction pairs generalizing edges with
  | nil => exact h
  | cons p t ih =>
    rw [materializeCo, List.foldl_cons]
    rw [show ∀ es, List.foldl _ es t = materializeCo es t from fun _ => rfl]
    by_cases hp : 2 ≤ p.2
    · simp only [if_pos hp]
      exact ih _ (nodupKeys_setK _ _ h)
    · simp only [if_neg hp]
      exact ih _ h

theorem getK_materializeCo (pairs : List ((String × String) × ℕ))
    (edges : List ((String × String) × PEdge))
    (hnd : (pairs.map Prod.fst).Nodup) (k : String × String) :
    getK (materializeCo edges pairs) k =
      if 2 ≤ getKD pairs k 0 then some (PEdge.mk (getKD pairs k 0) "co_occurs")
      else getK edges k := by
  induction pairs generalizing edges with
  | nil => simp [materializeCo, getKD, getK]
  | cons p t ih =>
    rw [List.map_cons, List.nodup_cons] at hnd
    rw [materializeCo, List.foldl_cons]
    rw [show ∀ es, List.foldl _ es t = materializeCo es t from fun _ => rfl]
    by_cases hk : p.1 = k
    · have htk : getK t k = none := by
        rw [getK_none_iff]
        rw [← hk]
        exact hnd.1
      have hDk : getKD (p :: t) k 0 = p.2 := by
        rw [getKD, getK, if_pos hk]
        rfl
      have hDt : getKD t k 0 = 0 := by rw [getKD, htk]; rfl
      rw [ih _ hnd.2, hDt, hDk]
      rw [if_neg (show ¬(2 : ℕ) ≤ 0 by omega)]
      by_cases hp : 2 ≤ p.2
      · rw [if_pos hp, if_pos hp, getK_setK, if_pos hk.symm]
      · rw [if_neg hp, if_neg hp]
    · have hDk : getKD (p :: t) k 0 = getKD t k 0 := by
        rw [getKD, getKD, getK, if_neg hk]
      rw [ih _ hnd.2, hDk]
      by_cases ht2 : 2 ≤ getKD t k 0
      · rw [if_pos ht2, if_pos ht2]
      · rw [if_neg ht2, if_neg ht2]
        by_cases hp : 2 ≤ p.2
        · rw [if_pos hp, getK_setK,
            if_neg (show ¬k = p.1 from fun hh => hk hh.symm)]
        · rw [if_neg hp]

theorem find?_co_none (edges : List ((String × String) × PEdge)) (a b : String)
    (h : (a, b) ∉ edges.map Prod.fst) :
    edges.find? (fun e => decide (e.1 = (a, b) ∧ e.2.etype = "co_occurs")) = none := by
  induction edges with
  | nil => rfl
  | cons p t ih =>
    rw [List.map_cons] at h
    rw [List.find?_cons]
    have hp : decide (p.1 = (a, b) ∧ p.2.etype = "co_occurs") = false := by
      simp only [decide_eq_false_iff_not, not_and]
      intro hc
      exact absurd (hc ▸ List.mem_cons_self p.1 (t.map Prod.fst)) h
    rw [hp]
    exact ih (fun hc => h (List.mem_cons_of_mem _ hc))

theorem find?_co_getK (edges : List ((String × String) × PEdge)) (a b : String)
    (hnd : (edges.map Prod.fst).Nodup) :
    edges.find? (fun e => decide (e.1 = (a, b) ∧ e.2.etype = "co_occurs")) =
      (match getK edges (a, b) with
       | some e => if e.etype = "co_occurs" then some ((a, b), e) else none
       | none => none) := by
  induction edges with
  | nil => simp [getK]
  | cons p t ih =>
    rw [List.map_cons, List.nodup_cons] at hnd
    by_cases hpk : p.1 = (a, b)
    · rw [getK, if_pos hpk, List.find?_cons]
      by_cases het : p.2.etype = "co_occurs"
      · have : decide (p.1 = (a, b) ∧ p.2.etype = "co_occurs") = true := by simp [hpk, het]
        rw [this]
        simp [if_pos het, ← hpk]
      · have : decide (p.1 = (a, b) ∧ p.2.etype = "co_occurs") = false := by simp [hpk, het]
        rw [this]
        rw [find?_co_none t a b (hpk ▸ hnd.1)]
        simp [if_neg het]
    · rw [getK, if_neg hpk, List.find?_cons]
      have : decide (p.1 = (a, b) ∧ p.2.etype = "co_occurs") = false := by simp [hpk]
      rw [this]
      exact ih hnd.2

/-! ## Claim theorems: C4 -/

/-- C4, corrected (counterexample): the journey `c4j` has two entries
containing the distinct types `A`, `B` in opposite orders; the claimed
unordered counter reaches 2, yet no `co_occurs` edge is materialized in
either direction, because the source keys the counter by the ordered
pair. -/
theorem c4_counterexample :
    ("A" : String) ≠ "B" ∧ claimUnorderedPairCount c4j "A" "B" = 2 ∧
      pCoEdgeWeight (buildPersonalGraph c4j) "A" "B" = none ∧
      pCoEdgeWeight (buildPersonalGraph c4j) "B" "A" = none := by
  decide

/-- C4, amended: in `build_personal_graph` the per-entry co-occurrence
counter is keyed by the ordered pair of (not necessarily distinct)
distortion types in entry order, and a `co_occurs` edge from `a` to `b`
carrying the counter value is materialized exactly when the ordered
counter of `(a, b)` is at least 2; two entries containing the same two
types in opposite orders therefore increment two different counters.
The disjointness hypothesis reflects the source's `KeyError` on a name
shared between the two vocabularies. -/
theorem c4_ordered_pairs (j : Journey) (hv : journeyVocabularyOk j) (a b : String) :
    pCoEdgeWeight (buildPersonalGraph j) a b =
      if 2 ≤ orderedPairCountJ j a b then some (orderedPairCountJ j a b) else none := by
  unfold pCoEdgeWeight buildPersonalGraph
  have hpnd : ((paccEntries ⟨[], [], [], []⟩ j.entries).pairs.map Prod.fst).Nodup :=
    paccEntries_pairs_nodup _ _ (by simp)
  have hinv := paccEntries_edges_inv j.entries ⟨[], [], [], []⟩ (by simp) (by simp)
  have hval : getKD (paccEntries ⟨[], [], [], []⟩ j.entries).pairs (a, b) 0 =
      orderedPairCountJ j a b := by
    rw [paccEntries_pairs]
    simp [getKD, getK, orderedPairCountJ]
  rw [find?_co_getK _ a b (nodupKeys_materializeCo _ _ hinv.2)]
  rw [getK_materializeCo _ _ hpnd, hval]
  by_cases h2 : 2 ≤ orderedPairCountJ j a b
  · rw [if_pos h2, if_pos h2]
    simp
  · rw [if_neg h2, if_neg h2]
    cases hE : getK (paccEntries ⟨[], [], [], []⟩ j.entries).edges (a, b) with
    | none => simp
    | some e =>
      have het := hinv.1 _ (getK_mem hE)
      have : ¬e.etype = "co_occurs" := by
        rw [het]
        decide
      simp [this]

/-- Witness for C4's amended theorem at the concrete journey `c4j`. -/
theorem c4_witness :
    pCoEdgeWeight (buildPersonalGraph c4j) "A" "B" =
      if 2 ≤ orderedPairCountJ c4j "A" "B" then some (orderedPairCountJ c4j "A" "B")
      else none :=
  c4_ordered_pairs c4j (by decide) "A" "B"

/-- C9, confirmed: the pair-counting loops do not require the two members
of a pair to be distinct; for the journey `c9j`, whose entries detect
type `X` twice within one entry (twice over, reaching both thresholds),
both the personal graph and the one-journey global graph contain a
`co_occurs` self loop at `X`. -/
theorem c9_self_loop :
    pCoEdgeWeight (buildPersonalGraph c9j) "X" "X" = some 2 ∧
      gCoEdgeWeight (buildGlobalIntvGraph [c9j]) "X" "X" = some 2 := by
  constructor
  · decide
  · have hthr : ((([c9j] : List Journey).length : ℕ) : ℚ) * (1 / 10) ≤ ((2 : ℕ) : ℚ) := by
      norm_num
    exact gCoEdgeWeight_eq [c9j] "X" "X" 2 (by decide) hthr

/-! ## Lemmas: the engine import -/

theorem getK_isSome_of_mem_keys {κ α : Type} [DecidableEq κ] {l : List (κ × α)} {k : κ}
    (h : k ∈ l.map Prod.fst) : (getK l k).isSome := by
  cases hg : getK l k with
  | none => exact absurd h ((getK_none_iff l k).1 hg)
  | some v => rfl

theorem nxEnsureNode_of_present (g : NXGraph) (id : String)
    (h : (getK g.nodes id).isSome) : nxEnsureNode g id = g := by
  unfold nxEnsureNode
  rw [if_pos h]

theorem nodesPhase_spec (nodes : List ExpNode) (g : NXGraph)
    (hdisj : ∀ n ∈ nodes, getK g.nodes n.id = none)
    (hn : (nodes.map ExpNode.id).Nodup) :
    (nodes.foldl (fun g n => nxAddNode g n.id n.attrs) g).nodes =
        g.nodes ++ nodes.map (fun n => (n.id, n.attrs)) ∧
      (nodes.foldl (fun g n => nxAddNode g n.id n.attrs) g).edges = g.edges := by
  induction nodes generalizing g with
  | nil => simp
  | cons n ns ih =>
    rw [List.map_cons, List.nodup_cons] at hn
    rw [List.foldl_cons]
    have hadd : nxAddNode g n.id n.attrs =
        { g with nodes := g.nodes ++ [(n.id, n.attrs)] } := by
      unfold nxAddNode
      rw [hdisj n (List.mem_cons_self n ns)]
    rw [hadd]
    have hdisj' : ∀ m ∈ ns, getK (g.nodes ++ [(n.id, n.attrs)]) m.id = none := by
      intro m hm
      rw [getK_append_right _ (hdisj m (List.mem_cons_of_mem _ hm))]
      rw [getK]
      have : ¬(n.id = m.id) := by
        intro hc
        exact hn.1 (hc ▸ List.mem_map_of_mem ExpNode.id hm)
      rw [if_neg this]
      rfl
    have := ih { g with nodes := g.nodes ++ [(n.id, n.attrs)] } hdisj' hn.2
    rw [this.1, this.2]
    simp

theorem edgesPhase_spec (edges : List ExpEdge) (g : NXGraph)
    (hends : ∀ e ∈ edges, (getK g.nodes e.src).isSome ∧ (getK g.nodes e.tgt).isSome)
    (hfresh : ∀ e ∈ edges, getK g.edges (e.src, e.tgt) = none)
    (hk : (edges.map (fun e => (e.src, e.tgt))).Nodup) :
    (edges.foldl (fun g e =>
        nxAddEdgeW g e.src e.tgt (valWeight (getK e.attrs "weight"))) g).nodes = g.nodes ∧
      (edges.foldl (fun g e =>
        nxAddEdgeW g e.src e.tgt (valWeight (getK e.attrs "weight"))) g).edges =
        g.edges ++ edges.map (fun e => ((e.src, e.tgt), valWeight (getK e.attrs "weight"))) := by
  induction edges generalizing g with
  | nil => simp
  | cons e es ih =>
    rw [List.map_cons, List.nodup_cons] at hk
    rw [List.foldl_cons]
    have h0 := hends e (List.mem_cons_self e es)
    have hadd : nxAddEdgeW g e.src e.tgt (valWeight (getK e.attrs "weight")) =
        { g with edges :=
            g.edges ++ [((e.src, e.tgt), valWeight (getK e.attrs "weight"))] } := by
      unfold nxAddEdgeW
      simp only [nxEnsureNode_of_present g e.src h0.1, nxEnsureNode_of_present g e.tgt h0.2]
      rw [hfresh e (List.mem_cons_self e es)]
    rw [hadd]
    have hends' : ∀ m ∈ es,
        (getK ({ g with edges := g.edges ++ [((e.src, e.tgt),
            valWeight (getK e.attrs "weight"))] } : NXGraph).nodes m.src).isSome ∧
          (getK ({ g with edges := g.edges ++ [((e.src, e.tgt),
            valWeight (getK e.attrs "weight"))] } : NXGraph).nodes m.tgt).isSome := by
      intro m hm
      exact hends m (List.mem_cons_of_mem _ hm)
    have hfresh' : ∀ m ∈ es,
        getK (g.edges ++ [((e.src, e.tgt), valWeight (getK e.attrs "weight"))])
          (m.src, m.tgt) = none := by
      intro m hm
      rw [getK_append_right _ (hfresh m (List.mem_cons_of_mem _ hm))]
      rw [getK]
      have : ¬((e.src, e.tgt) = (m.src, m.tgt)) := by
        intro hc
        exact hk.1 (hc ▸ List.mem_map_of_mem (fun e => (e.src, e.tgt)) hm)
      rw [if_neg this]
      rfl
    have := ih { g with edges := g.edges ++ [((e.src, e.tgt),
      valWeight (getK e.attrs "weight"))] } hends' hfresh' hk.2
    rw [this.1, this.2]
    simp

/-! ## Claim theorems: C3 -/

theorem buildGlobalIntvGraph_edges (js : List Journey) :
    (buildGlobalIntvGraph js).edges =
      (gaccAll js).cooc.filterMap
          (fun p => if (js.length : ℚ) * (1 / 10) ≤ (p.2 : ℚ) then
            some (p.1, GEdge.mk p.2 "co_occurs" none) else none) ++
        (gaccAll js).links.filterMap
          (fun p => if 2 ≤ p.2 then
            some (p.1, GEdge.mk p.2 "targets" (some (outcomeAvg (gaccAll js) p.1.1)))
            else none) := rfl

theorem c3js_graph_edges :
    (buildGlobalIntvGraph c3js).edges = [(("A", "B"), GEdge.mk 1 "co_occurs" none)] := by
  rw [buildGlobalIntvGraph_edges]
  rw [show (gaccAll c3js).cooc = [(("A", "B"), 1)] from by decide]
  rw [show (gaccAll c3js).links = [] from by decide]
  rw [show (c3js.length : ℚ) * (1 / 10) = 1 / 10 from by
    rw [show c3js.length = 1 from by decide]
    norm_num]
  simp only [List.filterMap_cons, List.filterMap_nil]
  rw [if_pos (by norm_num : (1 : ℚ) / 10 ≤ ((1 : ℕ) : ℚ))]
  rfl

/-- C3, corrected (counterexample): the export of the one-journey global
graph `c3js` carries `edge_type` on its single edge, yet importing it
produces exactly the same engine graph as importing the same edge record
with the `edge_type` attribute removed: `_build_networkx_graph` restores
only the weight, so the round trip does not preserve edge attributes. -/
theorem c3_counterexample :
    (exportGlobal (buildGlobalIntvGraph c3js)).edges.map
        (fun e => getK e.attrs "edge_type") = [some (Val.str "co_occurs")] ∧
      buildNetworkxGraph (exportGlobal (buildGlobalIntvGraph c3js)).nodes
          (exportGlobal (buildGlobalIntvGraph c3js)).edges =
        buildNetworkxGraph (exportGlobal (buildGlobalIntvGraph c3js)).nodes
          [ExpEdge.mk "A" "B" [("weight", Val.num ((1 : ℕ) : ℚ))]] := by
  have hexp : (exportGlobal (buildGlobalIntvGraph c3js)).edges =
      [ExpEdge.mk "A" "B" [("weight", Val.num ((1 : ℕ) : ℚ)),
        ("edge_type", Val.str "co_occurs")]] := by
    unfold exportGlobal
    rw [c3js_graph_edges]
    rfl
  constructor
  · rw [hexp]
    rfl
  · rw [hexp]
    rfl

/-- C3, amended: constructing the engine from an exported structure with
unique node ids, unique edge keys and edges between exported nodes (all
true of `export_for_gear` output) yields a graph with the same node set
carrying the exported attribute bags verbatim (the builder's `node_type`
attribute having been renamed to `type` by the export), and the same
directed edge set carrying only each edge's weight: the `edge_type` and
`effectiveness` attributes are dropped by the import.  Personal-graph
metadata is restored verbatim. -/
theorem c3_roundtrip_amended (nodes : List ExpNode) (edges : List ExpEdge)
    (meta : List (String × Val))
    (hn : (nodes.map ExpNode.id).Nodup)
    (he : ∀ e ∈ edges, e.src ∈ nodes.map ExpNode.id ∧ e.tgt ∈ nodes.map ExpNode.id)
    (hk : (edges.map (fun e => (e.src, e.tgt))).Nodup) :
    (buildNetworkxGraph nodes edges).nodes = nodes.map (fun n => (n.id, n.attrs)) ∧
      (buildNetworkxGraph nodes edges).edges =
        edges.map (fun e => ((e.src, e.tgt), valWeight (getK e.attrs "weight"))) ∧
      (loadPersonal ⟨nodes, edges⟩ meta).meta = meta := by
  unfold buildNetworkxGraph
  have h1 := nodesPhase_spec nodes ⟨[], []⟩ (by intro n _; rfl) hn
  have hkeys : ((nodes.map (fun n => (n.id, n.attrs))).map Prod.fst) =
      nodes.map ExpNode.id := by
    rw [List.map_map]
    rfl
  have h2 := edgesPhase_spec edges (nodes.foldl (fun g n => nxAddNode g n.id n.attrs) ⟨[], []⟩)
    (by
      intro e hm
      rw [h1.1]
      simp only [List.nil_append]
      constructor
      · exact getK_isSome_of_mem_keys (by rw [hkeys]; exact (he e hm).1)
      · exact getK_isSome_of_mem_keys (by rw [hkeys]; exact (he e hm).2))
    (by
      intro e hm
      rw [h1.2]
      rfl)
    hk
  refine ⟨?_, ?_, rfl⟩
  · rw [h2.1, h1.1]
    simp
  · rw [h2.2, h1.2]
    simp

/-- Witness for C3's amended theorem: the export of the global graph of
`c3wjs` satisfies the well-formedness hypotheses, and the loader
restores its metadata bag argument verbatim. -/
theorem c3_witness :
    (buildNetworkxGraph (exportGlobal (buildGlobalIntvGraph c3wjs)).nodes
          (exportGlobal (buildGlobalIntvGraph c3wjs)).edges).nodes =
        (exportGlobal (buildGlobalIntvGraph c3wjs)).nodes.map (fun n => (n.id, n.attrs)) ∧
      (buildNetworkxGraph (exportGlobal (buildGlobalIntvGraph c3wjs)).nodes
          (exportGlobal (buildGlobalIntvGraph c3wjs)).edges).edges =
        (exportGlobal (buildGlobalIntvGraph c3wjs)).edges.map
          (fun e => ((e.src, e.tgt), valWeight (getK e.attrs "weight"))) ∧
      (loadPersonal ⟨(exportGlobal (buildGlobalIntvGraph c3wjs)).nodes,
          (exportGlobal (buildGlobalIntvGraph c3wjs)).edges⟩ []).meta = [] :=
  c3_roundtrip_amended _ _ []
    (by decide) (by decide) (by decide)

/-! ## Claim theorems: C5 -/

/-- C5, corrected (counterexample): the one-node, zero-edge graph is
non-empty, but its composite self-similarity is 0.7, not 1.0: the edge
Jaccard term is defined to be 0 when the edge sets are empty, and it
still enters the weighted combination. -/
theorem c5_counterexample :
    computeGraphSimilarity c5single c5single = 7 / 10 ∧
      computeGraphSimilarity c5single c5single ≠ 1 := by
  have h : computeGraphSimilarity c5single c5single = 7 / 10 := by
    simp only [computeGraphSimilarity, c5single]
    norm_num
  exact ⟨h, by rw [h]; norm_num⟩

/-- C5, amended: the composite similarity of a non-empty graph `A` with
itself is 1.0 when `A` has at least one edge, and 0.7 when `A` has nodes
but no edges (the 0.3-weighted edge term degrades to 0 there). -/
theorem c5_self_similarity (A : Digraph) (h : A.nodes ≠ []) :
    computeGraphSimilarity A A = if A.edges.isEmpty then 7 / 10 else 1 := by
  have hn : A.nodes.toFinset ≠ ∅ := by
    rw [ne_eq, List.toFinset_eq_empty_iff]
    exact h
  have hcard : ((A.nodes.toFinset.card : ℕ) : ℚ) ≠ 0 := by
    rw [Nat.cast_ne_zero]
    simp only [ne_eq, Finset.card_eq_zero]
    exact hn
  have hcent : (A.nodes.toFinset.sum (fun n => 1 - |degCent A n - degCent A n|)) /
      ((A.nodes.toFinset.card : ℕ) : ℚ) = 1 := by
    simp only [sub_self, abs_zero, sub_zero, Finset.sum_const, nsmul_eq_mul, mul_one]
    exact div_self hcard
  simp only [computeGraphSimilarity, Finset.inter_self, Finset.union_self]
  rw [if_neg (show ¬(A.nodes.toFinset = ∅ ∨ A.nodes.toFinset = ∅) by simp [hn])]
  rw [if_pos hn, hcent, div_self hcard]
  by_cases hE : A.edges = []
  · rw [if_neg (show ¬(A.edges.toFinset ≠ ∅ ∧ A.edges.toFinset ≠ ∅) by simp [hE])]
    rw [if_pos (List.isEmpty_iff.2 hE)]
    norm_num
  · have hEne : A.edges.toFinset ≠ ∅ := by
      rw [ne_eq, List.toFinset_eq_empty_iff]
      exact hE
    have hEcard : ((A.edges.toFinset.card : ℕ) : ℚ) ≠ 0 := by
      rw [Nat.cast_ne_zero]
      simp only [ne_eq, Finset.card_eq_zero]
      exact hEne
    rw [if_pos ⟨hEne, hEne⟩, div_self hEcard]
    rw [if_neg (show ¬A.edges.isEmpty = true by simp [hE])]
    norm_num

/-- Witness for C5's amended theorem at the two-node one-edge graph. -/
theorem c5_witness :
    computeGraphSimilarity c5pair c5pair = if c5pair.edges.isEmpty then 7 / 10 else 1 :=
  c5_self_similarity c5pair (by decide)

/-! ## Claim theorems: C6 -/

theorem keystone_single (g : NXGraph) (x : String) :
    findKeystoneDistortions g [x] = [(x, 2 / 5)] := by
  have hq : extractUserPattern g [x] = ⟨[x], []⟩ := rfl
  have hb : betweennessCentrality (QGraph.toDigraph ⟨[x], []⟩) x = 0 := by
    simp [betweennessCentrality, QGraph.toDigraph]
  have hd : degCent (QGraph.toDigraph ⟨[x], []⟩) x = 1 := by
    simp [degCent, QGraph.toDigraph]
  have hscore : 6 / 10 * betweennessCentrality (QGraph.toDigraph ⟨[x], []⟩) x +
      4 / 10 * degCent (QGraph.toDigraph ⟨[x], []⟩) x = 2 / 5 := by
    rw [hb, hd]
    norm_num
  simp only [findKeystoneDistortions, hq]
  rw [if_neg (show ¬(QGraph.mk [x] [] : QGraph).nodes = [] by simp)]
  simp only [List.map_cons, List.map_nil, hscore]
  rfl

/-- C6, corrected (counterexample): on an engine with the empty global
graph, a single-distortion query does not score 0: networkx
`degree_centrality` maps every node of a one-node graph to 1, so the
combined score is `0.6 * 0 + 0.4 * 1 = 0.4`, not 0. -/
theorem c6_counterexample :
    findKeystoneDistortions nxEmpty ["a"] ≠ [("a", 0)] := by
  rw [keystone_single nxEmpty "a"]
  intro hc
  injection hc with h1 h2
  exact absurd (congrArg Prod.snd h1) (by norm_num)

/-- C6, amended: `find_keystone_distortions([])` is `[]` for every loaded
engine, and for every single distortion `x` the result is exactly
`[(x, 0.4)]`: betweenness is 0 on the lone node, but networkx defines
the degree centrality of a one-node graph as 1, so the score is
`0.6 * 0 + 0.4 * 1 = 0.4`, not 0. -/
theorem c6_keystone_base_cases (g : NXGraph) (x : String) :
    findKeystoneDistortions g [] = [] ∧
      findKeystoneDistortions g [x] = [(x, 2 / 5)] :=
  ⟨rfl, keystone_single g x⟩

/-! ## Claim theorems: C10 -/

/-- C10, confirmed: whenever `find_similar_patterns` returns the empty
list, the `outcomes` object of the bundle returned by
`retrieve_interventions` is exactly the two-key dict
`{'success_rate': 0, 'avg_improvement': 0}`; the `num_similar_cases` and
`most_common_trajectory` keys of the non-empty branch are absent. -/
theorem c10_empty_outcomes (e : Engine) (ds : List String) (k : ℕ)
    (h : findSimilarPatterns e ds k = []) :
    (retrieveInterventions e ds k).outcomes =
      [("success_rate", some (Val.num 0)), ("avg_improvement", some (Val.num 0))] := by
  show analyzeOutcomes (findSimilarPatterns e ds k) = _
  rw [h]
  rfl

/-- Witness for C10 at an engine loaded with zero personal graphs. -/
theorem c10_witness :
    findSimilarPatterns engEmpty ["a"] 3 = [] ∧
      (retrieveInterventions engEmpty ["a"] 3).outcomes =
        [("success_rate", some (Val.num 0)), ("avg_improvement", some (Val.num 0))] :=
  ⟨rfl, c10_empty_outcomes engEmpty ["a"] 3 rfl⟩

/-! ## Lemmas: query-graph extraction -/

theorem setK_eq_self {κ α : Type} [DecidableEq κ] {l : List (κ × α)} {k : κ} {v : α}
    (h : getK l k = some v) : setK l k v = l := by
  induction l with
  | nil => simp [getK] at h
  | cons p t ih =>
    obtain ⟨pk, pv⟩ := p
    by_cases hpk : pk = k
    · subst hpk
      rw [getK, if_pos rfl] at h
      have hv : pv = v := Option.some.inj h
      rw [setK, if_pos rfl, ← hv]
    · rw [getK, if_neg hpk] at h
      rw [setK, if_neg hpk, ih h]

theorem occursBefore_nil (a b : String) : ¬occursBefore [] a b := by
  rintro ⟨i, j, hi, hj, hij, ha, hb⟩
  exact absurd hi (by simp)

theorem occursBefore_cons (x : String) (xs : List String) (a b : String) :
    occursBefore (x :: xs) a b ↔ (x = a ∧ b ∈ xs) ∨ occursBefore xs a b := by
  constructor
  · rintro ⟨i, j, hi, hj, hij, ha, hb⟩
    cases i with
    | zero =>
      cases j with
      | zero => exact absurd hij (by omega)
      | succ j' =>
        left
        refine ⟨ha.symm ▸ rfl, ?_⟩
        rw [List.get_cons_succ] at hb
        exact hb ▸ List.get_mem _ _ _
    | succ i' =>
      cases j with
      | zero => exact absurd hij (by omega)
      | succ j' =>
        right
        rw [List.get_cons_succ] at ha hb
        exact ⟨i', j', by simpa using hi, by simpa using hj, by omega, ha, hb⟩
  · rintro (⟨hx, hb⟩ | ⟨i, j, hi, hj, hij, ha, hb⟩)
    · obtain ⟨n, hn⟩ := List.mem_iff_get.1 hb
      refine ⟨0, n.1 + 1, by simp, by simp [n.2], by omega, hx, ?_⟩
      rw [List.get_cons_succ]
      simpa using hn
    · exact ⟨i + 1, j + 1, by simpa using hi, by simpa using hj, by omega,
        by rw [List.get_cons_succ]; exact ha, by rw [List.get_cons_succ]; exact hb⟩

theorem foldl_qAddNode_edges (ds : List String) (q : QGraph) :
    (ds.foldl qAddNode q).edges = q.edges := by
  induction ds generalizing q with
  | nil => rfl
  | cons d ds ih =>
    rw [List.foldl_cons, ih]
    unfold qAddNode
    split <;> rfl

theorem mem_foldl_qAddNode (ds : List String) (q : QGraph) (y : String) :
    y ∈ (ds.foldl qAddNode q).nodes ↔ y ∈ q.nodes ∨ y ∈ ds := by
  induction ds generalizing q with
  | nil => simp
  | cons d ds ih =>
    rw [List.foldl_cons, ih]
    unfold qAddNode
    by_cases hd : d ∈ q.nodes
    · rw [if_pos hd]
      simp only [List.mem_cons]
      constructor
      · rintro (h | h)
        · exact Or.inl h
        · exact Or.inr (Or.inr h)
      · rintro (h | h | h)
        · exact Or.inl h
        · exact Or.inl (h ▸ hd)
        · exact Or.inr h
    · rw [if_neg hd]
      simp only [List.mem_append, List.mem_cons, List.not_mem_nil, or_false]
      exact or_assoc

theorem nodup_foldl_qAddNode (ds : List String) (q : QGraph) (h : q.nodes.Nodup) :
    (ds.foldl qAddNode q).nodes.Nodup := by
  induction ds generalizing q with
  | nil => exact h
  | cons d ds ih =>
    rw [List.foldl_cons]
    apply ih
    unfold qAddNode
    by_cases hd : d ∈ q.nodes
    · rw [if_pos hd]
      exact h
    · rw [if_neg hd]
      rw [List.nodup_append]
      refine ⟨h, List.nodup_singleton d, ?_⟩
      intro x hx hc
      rw [List.mem_singleton] at hc
      exact hd (hc ▸ hx)

theorem qSetEdge_nodes (q : QGraph) (a b : String) (w : ℚ) :
    (qSetEdge q a b w).nodes = q.nodes := by
  unfold qSetEdge
  split <;> rfl

theorem extractInner_spec (gg : NXGraph) (d1 : String) (rest : List String) (q : QGraph)
    (hI1 : ∀ kv ∈ q.edges, nxEdgeWeight gg kv.1.1 kv.1.2 = some kv.2)
    (hI2 : (q.edges.map Prod.fst).Nodup) :
    (extractInner gg q d1 rest).nodes = q.nodes ∧
      (∀ kv ∈ (extractInner gg q d1 rest).edges, nxEdgeWeight gg kv.1.1 kv.1.2 = some kv.2) ∧
      ((extractInner gg q d1 rest).edges.map Prod.fst).Nodup ∧
      (∀ a b w, ((a, b), w) ∈ (extractInner gg q d1 rest).edges ↔
        ((a, b), w) ∈ q.edges ∨ (a = d1 ∧ b ∈ rest ∧ nxEdgeWeight gg a b = some w)) := by
  induction rest generalizing q with
  | nil =>
    refine ⟨rfl, hI1, hI2, ?_⟩
    intro a b w
    simp [extractInner]
  | cons r rs ih =>
    rw [extractInner, List.foldl_cons,
      show ∀ q', List.foldl _ q' rs = extractInner gg q' d1 rs from fun _ => rfl]
    cases hW : nxEdgeWeight gg d1 r with
    | none =>
      simp only [hW]
      have h := ih q hI1 hI2
      refine ⟨h.1, h.2.1, h.2.2.1, ?_⟩
      intro a b w
      rw [h.2.2.2]
      constructor
      · rintro (hm | ⟨ha, hb, hw⟩)
        · exact Or.inl hm
        · exact Or.inr ⟨ha, List.mem_cons_of_mem _ hb, hw⟩
      · rintro (hm | ⟨ha, hb, hw⟩)
        · exact Or.inl hm
        · rcases List.mem_cons.1 hb with hb | hb
          · rw [ha, hb] at hw
            rw [hw] at hW
            exact absurd hW (by simp)
          · exact Or.inr ⟨ha, hb, hw⟩
    | some w0 =>
      simp only [hW]
      cases hP : getK q.edges (d1, r) with
      | some w' =>
        have hw' : w' = w0 := by
          have := hI1 _ (getK_mem hP)
          rw [hW] at this
          exact Option.some.inj this.symm
        have hq : qSetEdge q d1 r w0 = q := by
          unfold qSetEdge
          rw [hP]
          have hs : setK q.edges (d1, r) w0 = q.edges := setK_eq_self (hw' ▸ hP)
          rw [hs]
        rw [hq]
        have h := ih q hI1 hI2
        refine ⟨h.1, h.2.1, h.2.2.1, ?_⟩
        intro a b w
        rw [h.2.2.2]
        constructor
        · rintro (hm | ⟨ha, hb, hw⟩)
          · exact Or.inl hm
          · exact Or.inr ⟨ha, List.mem_cons_of_mem _ hb, hw⟩
        · rintro (hm | ⟨ha, hb, hw⟩)
          · exact Or.inl hm
          · rcases List.mem_cons.1 hb with hb | hb
            · rw [ha, hb] at hw
              rw [hw] at hW
              left
              rw [ha, hb, Option.some.inj hW, ← hw']
              exact getK_mem hP
            · exact Or.inr ⟨ha, hb, hw⟩
      | none =>
        have hq : qSetEdge q d1 r w0 = { q with edges := q.edges ++ [((d1, r), w0)] } := by
          unfold qSetEdge
          rw [hP]
        rw [hq]
        have hI1' : ∀ kv ∈ ({ q with edges := q.edges ++ [((d1, r), w0)] } : QGraph).edges,
            nxEdgeWeight gg kv.1.1 kv.1.2 = some kv.2 := by
          intro kv hkv
          rcases List.mem_append.1 hkv with hm | hm
          · exact hI1 _ hm
          · rw [List.mem_singleton.1 hm]
            exact hW
        have hI2' : (({ q with edges := q.edges ++ [((d1, r), w0)] } : QGraph).edges.map
            Prod.fst).Nodup := nodupKeys_append_fresh _ hI2 hP
        have h := ih _ hI1' hI2'
        refine ⟨h.1, h.2.1, h.2.2.1, ?_⟩
        intro a b w
        rw [h.2.2.2]
        simp only [List.mem_append, List.mem_singleton]
        constructor
        · rintro ((hm | hm) | ⟨ha, hb, hw⟩)
          · exact Or.inl hm
          · have h1 : (a, b) = (d1, r) := (Prod.ext_iff.1 hm).1
            have hw0 : w = w0 := (Prod.ext_iff.1 hm).2
            have ha : a = d1 := (Prod.ext_iff.1 h1).1
            have hb : b = r := (Prod.ext_iff.1 h1).2
            exact Or.inr ⟨ha, List.mem_cons.2 (Or.inl hb), by rw [ha, hb, hW, hw0]⟩
          · exact Or.inr ⟨ha, List.mem_cons_of_mem _ hb, hw⟩
        · rintro (hm | ⟨ha, hb, hw⟩)
          · exact Or.inl (Or.inl hm)
          · rcases List.mem_cons.1 hb with hb | hb
            · left
              right
              rw [ha, hb] at hw
              rw [hw] at hW
              rw [ha, hb, Option.some.inj hW]
            · exact Or.inr ⟨ha, hb, hw⟩

theorem extractPairs_spec (gg : NXGraph) (ds : List String) (q : QGraph)
    (hI1 : ∀ kv ∈ q.edges, nxEdgeWeight gg kv.1.1 kv.1.2 = some kv.2)
    (hI2 : (q.edges.map Prod.fst).Nodup) :
    (extractPairs gg q ds).nodes = q.nodes ∧
      (∀ a b w, ((a, b), w) ∈ (extractPairs gg q ds).edges ↔
        ((a, b), w) ∈ q.edges ∨ (occursBefore ds a b ∧ nxEdgeWeight gg a b = some w)) := by
  induction ds generalizing q with
  | nil =>
    refine ⟨rfl, ?_⟩
    intro a b w
    simp [extractPairs, occursBefore_nil]
  | cons d1 rest ih =>
    rw [extractPairs]
    have hInner := extractInner_spec gg d1 rest q hI1 hI2
    have h := ih _ hInner.2.1 hInner.2.2.1
    refine ⟨h.1.trans hInner.1, ?_⟩
    intro a b w
    rw [h.2, hInner.2.2.2]
    rw [occursBefore_cons]
    constructor
    · rintro ((hm | ⟨ha, hb, hw⟩) | ⟨hob, hw⟩)
      · exact Or.inl hm
      · exact Or.inr ⟨Or.inl ⟨ha.symm, hb⟩, hw⟩
      · exact Or.inr ⟨Or.inr hob, hw⟩
    · rintro (hm | ⟨hob | hob, hw⟩)
      · exact Or.inl (Or.inl hm)
      · exact Or.inl (Or.inr ⟨hob.1.symm, hob.2, hw⟩)
      · exact Or.inr ⟨hob, hw⟩

/-! ## Claim theorems: C8 -/

/-- C8, confirmed: for every loaded global graph and input sequence, the
query graph of `extract_user_pattern` has one node per distinct input
distortion, and it has an edge `(a, b)` with weight `w` exactly when `a`
occurs at some position `i` strictly before an occurrence of `b` at
position `j` and the global graph has the directed edge `a → b` with
weight `w`; the reverse direction of the global graph is never probed
(an edge appears only with a forward witness `i < j`). -/
theorem c8_extract_pattern (gg : NXGraph) (ds : List String) :
    (∀ y, y ∈ (extractUserPattern gg ds).nodes ↔ y ∈ ds) ∧
      (extractUserPattern gg ds).nodes.Nodup ∧
      (∀ a b w, ((a, b), w) ∈ (extractUserPattern gg ds).edges ↔
        occursBefore ds a b ∧ nxEdgeWeight gg a b = some w) := by
  unfold extractUserPattern
  have hN := foldl_qAddNode_edges ds ⟨[], []⟩
  have hspec := extractPairs_spec gg ds (ds.foldl qAddNode ⟨[], []⟩)
    (by rw [hN]; intro kv hkv; simp at hkv)
    (by rw [hN]; simp)
  refine ⟨?_, ?_, ?_⟩
  · intro y
    rw [hspec.1, mem_foldl_qAddNode]
    simp
  · rw [hspec.1]
    exact nodup_foldl_qAddNode ds ⟨[], []⟩ (by simp)
  · intro a b w
    rw [hspec.2]
    rw [hN]
    simp

/-! ## Lemmas: cascade paths -/

theorem spAux_spec (adj : String → List String) (t : String) :
    ∀ (b : ℕ) (visited : List String) (cur : String) (p : List String),
      p ∈ spAux adj t b visited cur → visited.Nodup → t ∉ visited →
      ∃ suffix, p = visited ++ suffix ∧ suffix ≠ [] ∧ suffix.length ≤ b ∧ p.Nodup := by
  intro b
  induction b with
  | zero =>
    intro visited cur p hp
    simp [spAux] at hp
  | succ b ih =>
    intro visited cur p hp hnd hts
    rw [spAux, List.mem_flatMap] at hp
    obtain ⟨child, hchild, hp⟩ := hp
    by_cases hv : child ∈ visited
    · rw [if_pos hv] at hp
      simp at hp
    · rw [if_neg hv] at hp
      have hnd' : (visited ++ [child]).Nodup := by
        rw [List.nodup_append]
        refine ⟨hnd, List.nodup_singleton _, ?_⟩
        intro x hx hc
        rw [List.mem_singleton] at hc
        exact hv (hc ▸ hx)
      by_cases ht : child = t
      · rw [if_pos ht, List.mem_singleton] at hp
        refine ⟨[child], hp, by simp, by simp, ?_⟩
        rw [hp]
        exact hnd'
      · rw [if_neg ht] at hp
        have hts' : t ∉ visited ++ [child] := by
          rw [List.mem_append, List.mem_singleton]
          rintro (hc | hc)
          · exact hts hc
          · exact ht hc.symm
        obtain ⟨suffix, hps, hsn, hsl, hpn⟩ := ih (visited ++ [child]) child p hp hnd' hts'
        refine ⟨child :: suffix, ?_, by simp, ?_, hpn⟩
        · rw [hps, List.append_assoc]
          rfl
        · rw [List.length_cons]
          omega

theorem cascadesDiscovered_mem (q : QGraph) (maxLen : ℕ) (p : List String)
    (h : p ∈ cascadesDiscovered q maxLen) :
    p.Nodup ∧ 2 ≤ p.length ∧ p.length - 1 ≤ maxLen := by
  unfold cascadesDiscovered at h
  rw [List.mem_flatMap] at h
  obtain ⟨s, hs, h⟩ := h
  rw [List.mem_flatMap] at h
  obtain ⟨t, ht, h⟩ := h
  by_cases hst : s = t
  · rw [if_neg (by simp [hst])] at h
    simp at h
  · rw [if_pos hst, List.mem_filter] at h
    have hsp := h.1
    unfold simplePathsUpTo at hsp
    obtain ⟨suffix, hps, hsn, hsl, hpn⟩ := spAux_spec (adjOf q.edges) t maxLen [s] s p hsp
      (List.nodup_singleton s)
      (by rw [List.mem_singleton]; exact fun hc => hst hc.symm)
    have hlen : p.length = 1 + suffix.length := by
      rw [hps, List.length_append, List.length_singleton]
    have hpos : 0 < suffix.length := List.length_pos.2 hsn
    exact ⟨hpn, by omega, by omega⟩

theorem mem_insertDescBy {α : Type} (w : α → ℚ) (x : α) (l : List α) (y : α) :
    y ∈ insertDescBy w x l ↔ y = x ∨ y ∈ l := by
  induction l with
  | nil => simp [insertDescBy]
  | cons z zs ih =>
    rw [insertDescBy]
    by_cases h : w x < w z
    · rw [if_pos h]
      simp only [List.mem_cons, ih]
      tauto
    · rw [if_neg h]
      simp only [List.mem_cons]

theorem mem_sortDescBy {α : Type} (w : α → ℚ) (l : List α) (y : α) :
    y ∈ sortDescBy w l ↔ y ∈ l := by
  induction l with
  | nil => simp [sortDescBy]
  | cons x xs ih =>
    rw [sortDescBy, mem_insertDescBy, ih, List.mem_cons]

theorem length_insertDescBy {α : Type} (w : α → ℚ) (x : α) (l : List α) :
    (insertDescBy w x l).length = l.length + 1 := by
  induction l with
  | nil => rfl
  | cons z zs ih =>
    rw [insertDescBy]
    by_cases h : w x < w z
    · rw [if_pos h, List.length_cons, ih, List.length_cons]
    · rw [if_neg h, List.length_cons, List.length_cons]

theorem length_sortDescBy {α : Type} (w : α → ℚ) (l : List α) :
    (sortDescBy w l).length = l.length := by
  induction l with
  | nil => rfl
  | cons x xs ih =>
    rw [sortDescBy, length_insertDescBy, ih, List.length_cons]

theorem pairwise_insertDescBy {α : Type} (w : α → ℚ) (x : α) (l : List α)
    (h : l.Pairwise (fun a b => w b ≤ w a)) :
    (insertDescBy w x l).Pairwise (fun a b => w b ≤ w a) := by
  induction l with
  | nil => simp [insertDescBy]
  | cons z zs ih =>
    rw [List.pairwise_cons] at h
    rw [insertDescBy]
    by_cases hlt : w x < w z
    · rw [if_pos hlt, List.pairwise_cons]
      refine ⟨?_, ih h.2⟩
      intro y hy
      rw [mem_insertDescBy] at hy
      rcases hy with hy | hy
      · rw [hy]
        exact le_of_lt hlt
      · exact h.1 y hy
    · rw [if_neg hlt, List.pairwise_cons]
      refine ⟨?_, List.pairwise_cons.2 h⟩
      intro y hy
      rcases List.mem_cons.1 hy with hy | hy
      · rw [hy]
        exact not_lt.1 hlt
      · exact le_trans (h.1 y hy) (not_lt.1 hlt)

theorem pairwise_sortDescBy {α : Type} (w : α → ℚ) (l : List α) :
    (sortDescBy w l).Pairwise (fun a b => w b ≤ w a) := by
  induction l with
  | nil => simp [sortDescBy]
  | cons x xs ih =>
    rw [sortDescBy]
    exact pairwise_insertDescBy w x _ ih

theorem filter_insertDescBy {α : Type} (w : α → ℚ) (k : ℚ) (x : α) (l : List α) :
    (insertDescBy w x l).filter (fun a => decide (w a = k)) =
      if w x = k then x :: l.filter (fun a => decide (w a = k))
      else l.filter (fun a => decide (w a = k)) := by
  induction l with
  | nil =>
    by_cases hx : w x = k
    · simp [insertDescBy, hx]
    · simp [insertDescBy, hx]
  | cons z zs ih =>
    rw [insertDescBy]
    by_cases hlt : w x < w z
    · rw [if_pos hlt, List.filter_cons, List.filter_cons]
      by_cases hx : w x = k
      · have hz : decide (w z = k) = false := by
          simp only [decide_eq_false_iff_not]
          intro hc
          rw [hc.trans hx.symm] at hlt
          exact lt_irrefl _ hlt
        rw [hz, if_pos hx, ih, if_pos hx]
        simp
      · rw [ih, if_neg hx, if_neg hx]
    · rw [if_neg hlt, List.filter_cons]
      by_cases hx : w x = k
      · have hxd : decide (w x = k) = true := by simp [hx]
        rw [hxd, if_pos hx]
        simp
      · have hxd : decide (w x = k) = false := by simp [hx]
        rw [hxd, if_neg hx]
        simp

theorem filter_sortDescBy {α : Type} (w : α → ℚ) (k : ℚ) (l : List α) :
    (sortDescBy w l).filter (fun a => decide (w a = k)) =
      l.filter (fun a => decide (w a = k)) := by
  induction l with
  | nil => rfl
  | cons x xs ih =>
    rw [sortDescBy, filter_insertDescBy, ih, List.filter_cons]
    by_cases hx : w x = k
    · have hxd : decide (w x = k) = true := by simp [hx]
      rw [if_pos hx, hxd]
      simp
    · have hxd : decide (w x = k) = false := by simp [hx]
      rw [if_neg hx, hxd]
      simp

/-! ## Claim theorems: C7 -/

/-- C7, confirmed: every path returned by `find_cascade_paths` has no
repeated node, has at least 2 nodes and at most `max_length` edges; at
most 10 paths are returned; they are sorted by descending path weight
(sum of edge weights of the query graph); and ties are kept in discovery
order: for every weight value, the returned paths with that weight form
a sublist of the discovered cascades in discovery order. -/
theorem c7_cascade_properties (gg : NXGraph) (ds : List String) (maxLen : ℕ) :
    (findCascadePaths gg ds maxLen).Forall
        (fun p => p.Nodup ∧ 2 ≤ p.length ∧ p.length - 1 ≤ maxLen) ∧
      (findCascadePaths gg ds maxLen).length ≤ 10 ∧
      (findCascadePaths gg ds maxLen).Pairwise (fun p1 p2 =>
        pathWeight (extractUserPattern gg ds) p2 ≤ pathWeight (extractUserPattern gg ds) p1) ∧
      ∀ k : ℚ, List.Sublist
        ((findCascadePaths gg ds maxLen).filter
          (fun p => decide (pathWeight (extractUserPattern gg ds) p = k)))
        ((cascadesDiscovered (extractUserPattern gg ds) maxLen).filter
          (fun p => decide (pathWeight (extractUserPattern gg ds) p = k))) := by
  have heq : findCascadePaths gg ds maxLen =
      ((sortDescBy (fun c : List String × ℚ => c.2)
        ((cascadesDiscovered (extractUserPattern gg ds) maxLen).map
          (fun p => (p, pathWeight (extractUserPattern gg ds) p)))).take 10).map
        (fun c => c.1) := rfl
  have hmem_cw : ∀ c ∈ (cascadesDiscovered (extractUserPattern gg ds) maxLen).map
      (fun p => (p, pathWeight (extractUserPattern gg ds) p)),
      c.2 = pathWeight (extractUserPattern gg ds) c.1 ∧
        c.1 ∈ cascadesDiscovered (extractUserPattern gg ds) maxLen := by
    intro c hc
    obtain ⟨p, hp, hpc⟩ := List.mem_map.1 hc
    rw [← hpc]
    exact ⟨rfl, hp⟩
  have hmem_take : ∀ c ∈ (sortDescBy (fun c : List String × ℚ => c.2)
      ((cascadesDiscovered (extractUserPattern gg ds) maxLen).map
        (fun p => (p, pathWeight (extractUserPattern gg ds) p)))).take 10,
      c ∈ (cascadesDiscovered (extractUserPattern gg ds) maxLen).map
        (fun p => (p, pathWeight (extractUserPattern gg ds) p)) := by
    intro c hc
    exact (mem_sortDescBy _ _ _).1 ((List.take_sublist _ _).subset hc)
  refine ⟨?_, ?_, ?_, ?_⟩
  · rw [heq, List.forall_iff_forall_mem]
    intro p hp
    obtain ⟨c, hc, hcp⟩ := List.mem_map.1 hp
    have h2 := hmem_cw c (hmem_take c hc)
    rw [← hcp]
    exact cascadesDiscovered_mem _ _ _ h2.2
  · rw [heq, List.length_map, List.length_take]
    exact min_le_left _ _
  · rw [heq, List.pairwise_map]
    have hsort := pairwise_sortDescBy (fun c : List String × ℚ => c.2)
      ((cascadesDiscovered (extractUserPattern gg ds) maxLen).map
        (fun p => (p, pathWeight (extractUserPattern gg ds) p)))
    have htk := List.Pairwise.sublist (List.take_sublist 10 _) hsort
    refine List.Pairwise.imp_of_mem ?_ htk
    intro a b ha hb hr
    have h2a := (hmem_cw a (hmem_take a ha)).1
    have h2b := (hmem_cw b (hmem_take b hb)).1
    rw [← h2a, ← h2b]
    exact hr
  · intro k
    rw [heq, List.filter_map]
    have hcong : ((sortDescBy (fun c : List String × ℚ => c.2)
        ((cascadesDiscovered (extractUserPattern gg ds) maxLen).map
          (fun p => (p, pathWeight (extractUserPattern gg ds) p)))).take 10).filter
          ((fun p => decide (pathWeight (extractUserPattern gg ds) p = k)) ∘ (fun c => c.1)) =
        ((sortDescBy (fun c : List String × ℚ => c.2)
          ((cascadesDiscovered (extractUserPattern gg ds) maxLen).map
            (fun p => (p, pathWeight (extractUserPattern gg ds) p)))).take 10).filter
          (fun c => decide (c.2 = k)) := by
      apply List.filter_congr
      intro c hc
      have h2 := (hmem_cw c (hmem_take c hc)).1
      simp only [Function.comp]
      rw [h2]
    rw [hcong]
    have hsub : List.Sublist
        (((sortDescBy (fun c : List String × ℚ => c.2)
          ((cascadesDiscovered (extractUserPattern gg ds) maxLen).map
            (fun p => (p, pathWeight (extractUserPattern gg ds) p)))).take 10).filter
          (fun c => decide (c.2 = k)))
        (((cascadesDiscovered (extractUserPattern gg ds) maxLen).map
          (fun p => (p, pathWeight (extractUserPattern gg ds) p))).filter
          (fun c => decide (c.2 = k))) := by
      have h1 := List.Sublist.filter (fun c : List String × ℚ => decide (c.2 = k))
        (List.take_sublist 10 (sortDescBy (fun c : List String × ℚ => c.2)
          ((cascadesDiscovered (extractUserPattern gg ds) maxLen).map
            (fun p => (p, pathWeight (extractUserPattern gg ds) p)))))
      have h2 := filter_sortDescBy (fun c : List String × ℚ => c.2) k
        ((cascadesDiscovered (extractUserPattern gg ds) maxLen).map
          (fun p => (p, pathWeight (extractUserPattern gg ds) p)))
      rw [h2] at h1
      exact h1
    have hmapped := List.Sublist.map (fun c : List String × ℚ => c.1) hsub
    have hrhs : (((cascadesDiscovered (extractUserPattern gg ds) maxLen).map
        (fun p => (p, pathWeight (extractUserPattern gg ds) p))).filter
          (fun c => decide (c.2 = k))).map (fun c => c.1) =
        (cascadesDiscovered (extractUserPattern gg ds) maxLen).filter
          (fun p => decide (pathWeight (extractUserPattern gg ds) p = k)) := by
      rw [List.filter_map, List.map_map]
      simp [Function.comp_def]
    rw [hrhs] at hmapped
    exact hmapped

end Gear
